import Mathlib

/-!
# jx-secret: secret value resolution and write-back

A shallow embedding of `pkg/cmd/populate/templater.go` (the name resolver and
the `secret`, `htpasswdSecret` and `auth` template functions) and of
`pkg/cmd/edit/edit.go` (`Options.Run`, `propertyMessage`, `askForSecretValue`).

Go strings are modelled by Lean strings.  The two separators the code looks
for, `.` and `:`, are single-byte characters, so the byte offset Go computes
and the character offset used here cut a string at the same place.
-/

namespace JxSecret

/-! ## Go runtime and standard library -/

/-- Scan for `strings.Index`: `i` is the offset of the suffix `s` inside the
string that is being searched. -/
def stringsIndexFrom (substr : List Char) : List Char → Nat → Int
  | [], i => if substr.isEmpty then (i : Int) else -1
  | c :: cs, i =>
    if substr.isPrefixOf (c :: cs) then (i : Int) else stringsIndexFrom substr cs (i + 1)

/-- Go `strings.Index(s, substr)`: the offset of the first instance of
`substr` in `s`, or `-1` when `substr` is not present in `s`. -/
def stringsIndex (s substr : String) : Int :=
  stringsIndexFrom substr.data s.data 0

/-- Go `strings.Contains(s, substr)`, which is `strings.Index(s, substr) >= 0`. -/
def stringsContains (s substr : String) : Bool :=
  decide (stringsIndex s substr ≥ 0)

/-- Go slice expression `s[lo:hi]` on a string.  `none` is the run-time panic
"slice bounds out of range", raised unless `0 ≤ lo ≤ hi ≤ len(s)`. -/
def goSlice (s : String) (lo hi : Int) : Option String :=
  if 0 ≤ lo ∧ lo ≤ hi ∧ hi ≤ (s.data.length : Int) then
    some (String.mk ((s.data.take hi.toNat).drop lo.toNat))
  else
    none

/-- Go slice expression `s[lo:]`, which is `s[lo:len(s)]`. -/
def goSliceFrom (s : String) (lo : Int) : Option String :=
  goSlice s lo (s.data.length : Int)

/-- Go slice expression `s[:hi]`, which is `s[0:hi]`. -/
def goSliceTo (s : String) (hi : Int) : Option String :=
  goSlice s 0 hi

/-! ## `templater.go`: the name resolver -/

/-- `ResolveResourceNames` (templater.go:162-168).  The result is
`(localName, namespace)`; `none` stands for a slice panic. -/
def ResolveResourceNames (name : String) (currentNamespace : String) :
    Option (String × String) :=
  let idx := stringsIndex name "."
  if idx < 0 then
    some (name, currentNamespace)
  else
    match goSliceFrom name (idx + 1), goSliceTo name idx with
    | some localName, some ns => some (localName, ns)
    | _, _ => none

/-! ## `templater.go`: the template functions -/

/-- Go `error` values that are not `nil`: an error made by a collaborator, or
`errors.Wrapf(cause, ...)` with its formatted message. -/
inductive GoError where
  | New (msg : String)
  | Wrapf (cause : GoError) (msg : String)
deriving DecidableEq

/-- Go `map[string][]byte` and `map[string]string` values that are not `nil`,
as association lists; byte slices are read through `string(...)` only. -/
abbrev GoMap := List (String × String)

/-- Go map index expression `m[k]`: the zero value `""` for a missing key. -/
def goMapIndex (m : GoMap) (k : String) : String :=
  (m.lookup k).getD ""

/-- `v1.Secret`, of which the template functions read the field `Data` only;
`none` is the `nil` map. -/
structure Secret where
  Data : Option GoMap
deriving DecidableEq

/-- The collaborators of the template functions, outside this repository.
`Get n ns name` is what `o.KubeClient.CoreV1().Secrets(ns).Get(ctx, name, opts)`
returns, a `(*v1.Secret, error)` pair, on the call that follows `n` earlier
calls: the store may change between two attempts.  `IsNotFound` is
`apierrors.IsNotFound` and `GenerateFromPassword` is
`bcrypt.GenerateFromPassword`, a `([]byte, error)` pair. -/
structure TemplateEnv where
  Get : Nat → String → String → Option Secret × Option GoError
  IsNotFound : GoError → Bool
  GenerateFromPassword : String → Int → String × Option GoError

/-- `retry.DefaultBackoff.Steps` of k8s.io/client-go: the number of attempts. -/
def DefaultBackoffSteps : Nat := 4

/-- `bcrypt.DefaultCost` of golang.org/x/crypto. -/
def bcryptDefaultCost : Int := 10

/-- `retry.OnError(backoff, retriable, fn)` of k8s.io/client-go with
`backoff.Steps = steps`, the waiting between attempts left out.  `fn` acts on
a state `σ`; `fn` is called until it returns `nil`, returns an error that is
not retriable, or the steps are used up, and then the last retriable error is
returned in place of the timeout. -/
def retryOnError {σ : Type} (retriable : GoError → Bool) (fn : σ → Option GoError × σ) :
    Nat → Option GoError → σ → Option GoError × σ
  | 0, lastErr, s => (lastErr, s)
  | steps + 1, _, s =>
    match fn s with
    | (none, s1) => (none, s1)
    | (some err, s1) =>
      if retriable err then retryOnError retriable fn steps (some err) s1
      else (some err, s1)

/-- The closure `getSecretFunc` (templater.go:32-36, 59-63, 108-112).  The
state holds the captured variable `secret` and the number of calls made. -/
def getSecretFunc (env : TemplateEnv) (ns lookupSecret : String) :
    Option Secret × Nat → Option GoError × (Option Secret × Nat)
  | (_, n) =>
    match env.Get n ns lookupSecret with
    | (secret, err) => (err, (secret, n + 1))

/-- The lookup each template function starts with (templater.go:29-40, 56-67,
105-116): `var secret`, then `retry.OnError(retry.DefaultBackoff, IsNotFound,
getSecretFunc)`.  The result is the final `(secret, err)`. -/
def getSecretWithRetry (env : TemplateEnv) (ns lookupSecret : String) :
    Option Secret × Option GoError :=
  match retryOnError env.IsNotFound (getSecretFunc env ns lookupSecret)
      DefaultBackoffSteps none (none, 0) with
  | (err, (secret, _)) => (secret, err)

/-- The guard `err != nil && !apierrors.IsNotFound(err)` (templater.go:41, 69, 118). -/
def isOtherError (env : TemplateEnv) : Option GoError → Bool
  | none => false
  | some err => !env.IsNotFound err

/-- `funcMap["secret"]` (templater.go:28-50), `ns0` being the parameter
`namespace` of `EvaluateTemplate` the closure captures.  The log calls are
left out, and with them the parameters `secretName` and `property` that only
they read; `none` stands for a panic. -/
def funcMap_secret (env : TemplateEnv) (ns0 : String)
    (lookupSecretName lookupKey : String) : Option String :=
  match ResolveResourceNames lookupSecretName ns0 with
  | none => none
  | some (lookupSecret, ns) =>
    match getSecretWithRetry env ns lookupSecret with
    | (secret, err) =>
      if isOtherError env err then some ""
      else
        let answer := ""
        match secret with
        | some { Data := some data } => some (goMapIndex data lookupKey)
        | _ => some answer

/-- `funcMap["htpasswdSecret"]` (templater.go:55-99). -/
def funcMap_htpasswdSecret (env : TemplateEnv) (ns0 : String)
    (lookupSecretName usernameKey passwordKey : String) : Option String :=
  match ResolveResourceNames lookupSecretName ns0 with
  | none => none
  | some (lookupSecret, ns) =>
    match getSecretWithRetry env ns lookupSecret with
    | (secret, err) =>
      if isOtherError env err then some ""
      else
        match secret with
        | some { Data := some data } =>
          let username := goMapIndex data usernameKey
          if username = "" then some ""
          else if stringsContains username ":" then some ""
          else
            let password := goMapIndex data passwordKey
            if password = "" then some ""
            else
              match env.GenerateFromPassword password bcryptDefaultCost with
              | (_, some _) => some ""
              | (hash, none) => some (username ++ ":" ++ hash)
        | _ => some ""

/-- `funcMap["auth"]` (templater.go:104-127). -/
def funcMap_auth (env : TemplateEnv) (ns0 : String)
    (lookupSecretName userKey passwordKey : String) : Option String :=
  match ResolveResourceNames lookupSecretName ns0 with
  | none => none
  | some (lookupSecret, ns) =>
    match getSecretWithRetry env ns lookupSecret with
    | (secret, err) =>
      if isOtherError env err then some ""
      else
        let answer := ""
        match secret with
        | some { Data := some data } =>
          some (goMapIndex data userKey ++ ":" ++ goMapIndex data passwordKey)
        | _ => some answer

/-- Attempt number `i` to get the secret `ns/name` fails with an error that
`apierrors.IsNotFound` recognises. -/
def notFoundAt (env : TemplateEnv) (ns name : String) (i : Nat) : Bool :=
  match env.Get i ns name with
  | (_, some err) => env.IsNotFound err
  | (_, none) => false

/-- The attempts before attempt `k` to get the secret `ns/name` all fail with
"not found", so that attempt `k` is made when `k` is below the number of steps. -/
def NotFoundUntil (env : TemplateEnv) (ns name : String) (k : Nat) : Prop :=
  ∀ i, i < k → notFoundAt env ns name i = true

instance (env : TemplateEnv) (ns name : String) (k : Nat) :
    Decidable (NotFoundUntil env ns name k) := by
  unfold NotFoundUntil
  exact inferInstance

/-- The pointer `secret` is `nil` or the secret it points to has a `nil` payload. -/
def noPayload : Option Secret → Bool
  | some { Data := some _ } => false
  | _ => true

/-- A store for examples: the secret `jx/creds` holds `data`, no other secret
exists, and the hash of `p` is written `"$2a$10$" ++ p`. -/
def exampleStore (data : GoMap) : TemplateEnv where
  Get := fun _ ns name =>
    if ns = "jx" ∧ name = "creds" then (some { Data := some data }, none)
    else (none, some (GoError.New "not found"))
  IsNotFound := fun e => decide (e = GoError.New "not found")
  GenerateFromPassword := fun p _ => ("$2a$10$" ++ p, none)

/-- A store in which the secret `jx/creds` never appears, for examples. -/
def emptyStore : TemplateEnv where
  Get := fun _ _ _ => (none, some (GoError.New "not found"))
  IsNotFound := fun e => decide (e = GoError.New "not found")
  GenerateFromPassword := fun p _ => ("$2a$10$" ++ p, none)

/-! ## `edit.go`: the data the command works on -/

/-- `v1.ExternalSecretSpec`, of which `Run` reads the backend type only. -/
structure ExternalSecretSpec where
  BackendType : String
deriving DecidableEq

/-- `v1.ExternalSecret`, of which `Run` reads `Name` and `Spec.BackendType`. -/
structure ExternalSecret where
  Name : String
  Spec : ExternalSecretSpec
deriving DecidableEq

/-- `secretfacade.EntryError`: a key and its missing properties. -/
structure EntryError where
  Key : String
  Properties : List String
deriving DecidableEq

/-- `secretfacade.SecretError`: one result of `Verify`.  The slices of
pointers `[]*SecretError` and `[]*EntryError` are read as lists of values, so
that no element is `nil`. -/
structure SecretError where
  ExternalSecret : ExternalSecret
  EntryErrors : List EntryError
deriving DecidableEq

/-- `editor.PropertyValue`. -/
structure PropertyValue where
  Property : String
  Value : String
deriving DecidableEq

/-- `editor.KeyProperties`: the batch of one key handed to `Write`. -/
structure KeyProperties where
  Key : String
  Properties : List PropertyValue
deriving DecidableEq

/-- `schema.Property`, of which `askForSecretValue` reads these fields; a
`nil` map of labels reads like the empty one. -/
structure Property where
  Question : String
  Help : String
  Labels : GoMap
deriving DecidableEq

/-- A value of `editor.Interface` that is not `nil`, named by a handle; the
`nil` interface value is `none : Option Editor`. -/
abbrev Editor := Nat

/-- What `Run` does to the outside, in the order it does it, each call with
what it returned.  `askForSecretValue` records the return of a call of the
method of that name, with the key of its entry, and is the one event that is
not a call of a collaborator. -/
inductive Event where
  | Infof (format : String) (args : List String)
  | Warn (msg : String)
  | NewEditor (secret : ExternalSecret) (editor : Option Editor) (err : Option GoError)
  | PickPassword (message help : String) (value : String) (err : Option GoError)
  | askForSecretValue (key property name : String) (value : String) (err : Option GoError)
  | Write (editor : Editor) (kp : KeyProperties) (err : Option GoError)
deriving DecidableEq

/-- The receiver `o` of `Run` with the collaborators it reaches, none of which
is part of these sources.  `NewEditor`, `PickPassword` and `Write` answer from
the events so far, so that a collaborator may answer the same call differently
at different times; `PickPassword` is the one of `o.Input`, or of
`survey.NewInput()` when `o.Input` is `nil`.  `Schema` is the type of
`*schema.Schema`, `LabelKind` the constant `schema.LabelKind`, `Join`
`filepath.Join`, `ColorInfo` `termcolor.ColorInfo`, `KeyPropertiesString`
the method `KeyProperties.String`, and `ExternalSecretsLen` the length of
`o.ExternalSecrets` once `Verify` has run. -/
structure Options (Schema : Type) where
  Dir : String
  Verify : List SecretError × Option GoError
  ExternalSecretsLen : Nat
  Join : List String → String
  ColorInfo : String → String
  LoadSchema : String → Schema × Option GoError
  FindObjectProperty : Schema → String → String → Option Property × Option GoError
  LabelKind : String
  NewEditor : List Event → ExternalSecret → Option Editor × Option GoError
  PickPassword : List Event → String → String → String × Option GoError
  Write : List Event → Editor → KeyProperties → Option GoError
  KeyPropertiesString : KeyProperties → String

/-- How a call of `Run`, or of a part of its loops, ends: with `nil` (a loop:
by running to its end), with an error that is not `nil`, or in a panic. -/
inductive Outcome where
  | nil
  | err (e : GoError)
  | panic
deriving DecidableEq

/-! ## `edit.go`: the command -/

/-- `propertyMessage` (edit.go:131-133). -/
def propertyMessage (e : EntryError) (property : String) : String × String :=
  (e.Key ++ "." ++ property, "")

/-- `askForSecretValue` (edit.go:135-175), called after the events `hist`.
The result is the `(string, error)` pair with the events of the call. -/
def askForSecretValue {Schema : Type} (o : Options Schema) (schema : Schema)
    (hist : List Event) (e : EntryError) (property name : String) :
    (String × Option GoError) × List Event :=
  let value := ""
  match o.FindObjectProperty schema name property with
  | (_, some err) =>
    (("", some (GoError.Wrapf err
      ("failed to find schema property for object " ++ name ++ " property " ++ property))), [])
  | (none, none) =>
    match propertyMessage e property with
    | (message, help) =>
      match o.PickPassword hist message help with
      | (v, some err) =>
        (("", some (GoError.Wrapf err
          ("failed to enter property " ++ property ++ " for key " ++ e.Key ++
            " on ExternalSecret " ++ name))),
          [Event.PickPassword message help v (some err)])
      | (value, none) => ((value, none), [Event.PickPassword message help value none])
  | (some propertySpec, none) =>
    let kind := goMapIndex propertySpec.Labels o.LabelKind
    if kind = "confirm" then
      ((value, none), [Event.Warn "implement confirm"])
    else
      match o.PickPassword hist propertySpec.Question propertySpec.Help with
      | (v, err) => ((v, err), [Event.PickPassword propertySpec.Question propertySpec.Help v err])

/-- The loop over `e.Properties` (edit.go:108-119), from the property list
that is left, the batch so far and the events so far. -/
def runProperties {Schema : Type} (o : Options Schema) (schema : Schema) (e : EntryError)
    (name : String) : List String → KeyProperties → List Event →
    Except GoError KeyProperties × List Event
  | [], keyProperties, _ => (Except.ok keyProperties, [])
  | property :: rest, keyProperties, hist =>
    match askForSecretValue o schema hist e property name with
    | ((value, err), evs) =>
      let evs1 := evs ++ [Event.askForSecretValue e.Key property name value err]
      match err with
      | some err =>
        (Except.error (GoError.Wrapf err
          ("failed to ask user secret value property " ++ property ++ " for key " ++ e.Key ++
            " on ExternalSecret " ++ name)), evs1)
      | none =>
        match runProperties o schema e name rest
            { keyProperties with
              Properties := keyProperties.Properties ++ [{ Property := property, Value := value }] }
            (hist ++ evs1) with
        | (res, evs2) => (res, evs1 ++ evs2)

/-- The body of the loop over `r.EntryErrors` (edit.go:105-124) for the entry
`e`: build the batch, then write it through `secEditor`. -/
def runEntry {Schema : Type} (o : Options Schema) (schema : Schema)
    (secEditor : Option Editor) (name : String) (e : EntryError) (hist : List Event) :
    Outcome × List Event :=
  match runProperties o schema e name e.Properties { Key := e.Key, Properties := [] } hist with
  | (Except.error err, evs) => (Outcome.err err, evs)
  | (Except.ok keyProperties, evs) =>
    match secEditor with
    | none => (Outcome.panic, evs)
    | some ed =>
      match o.Write (hist ++ evs) ed keyProperties with
      | some err =>
        (Outcome.err (GoError.Wrapf err
          ("failed to save properties " ++ o.KeyPropertiesString keyProperties ++
            " on ExternalSecret " ++ name)),
          evs ++ [Event.Write ed keyProperties (some err)])
      | none => (Outcome.nil, evs ++ [Event.Write ed keyProperties none])

/-- The loop over `r.EntryErrors` (edit.go:104-126). -/
def runEntries {Schema : Type} (o : Options Schema) (schema : Schema)
    (secEditor : Option Editor) (name : String) : List EntryError → List Event →
    Outcome × List Event
  | [], _ => (Outcome.nil, [])
  | e :: rest, hist =>
    match runEntry o schema secEditor name e hist with
    | (Outcome.nil, evs) =>
      match runEntries o schema secEditor name rest (hist ++ evs) with
      | (out, evs2) => (out, evs ++ evs2)
    | (out, evs) => (out, evs)

/-- The format of the log line of edit.go:92. -/
def usingFormat : String := "using %s as the secrets store"

/-- The start of the body of the loop over `results` (edit.go:89-99) for the
result `r`: log the backend type, look its editor up in the map `editors` (a
missing key reads as `nil`) and make and store the editor when that is `nil`.
The result is the error, or `secEditor` with the map as it is then. -/
def getEditor {Schema : Type} (o : Options Schema) (r : SecretError)
    (editors : String → Option Editor) (hist : List Event) :
    Except GoError (Option Editor × (String → Option Editor)) × List Event :=
  let name := r.ExternalSecret.Name
  let backendType := r.ExternalSecret.Spec.BackendType
  let evs0 := [Event.Infof usingFormat [backendType]]
  match editors backendType with
  | some ed => (Except.ok (some ed, editors), evs0)
  | none =>
    match o.NewEditor (hist ++ evs0) r.ExternalSecret with
    | (ed, some err) =>
      (Except.error (GoError.Wrapf err
        ("failed to create a secret editor for ExternalSecret " ++ name)),
        evs0 ++ [Event.NewEditor r.ExternalSecret ed (some err)])
    | (secEditor, none) =>
      (Except.ok (secEditor, fun k => if k = backendType then secEditor else editors k),
        evs0 ++ [Event.NewEditor r.ExternalSecret secEditor none])

/-- The loop over `results` (edit.go:88-127), from the results that are left,
the map `editors` and the events so far. -/
def runResults {Schema : Type} (o : Options Schema) (schema : Schema) :
    List SecretError → (String → Option Editor) → List Event → Outcome × List Event
  | [], _, _ => (Outcome.nil, [])
  | r :: rest, editors, hist =>
    match getEditor o r editors hist with
    | (Except.error err, evs1) => (Outcome.err err, evs1)
    | (Except.ok (secEditor, editors1), evs1) =>
      match runEntries o schema secEditor r.ExternalSecret.Name r.EntryErrors (hist ++ evs1) with
      | (Outcome.nil, evs2) =>
        match runResults o schema rest editors1 (hist ++ (evs1 ++ evs2)) with
        | (out, evs3) => (out, evs1 ++ evs2 ++ evs3)
      | (out, evs2) => (out, evs1 ++ evs2)

/-- `Run` (edit.go:65-129): the outcome and the events of the call.  The
assignments to the fields `o.Results`, `o.Input` and `o.Schema` are left out:
the loops read the local values. -/
def Run {Schema : Type} (o : Options Schema) : Outcome × List Event :=
  match o.Verify with
  | (_, some err) => (Outcome.err (GoError.Wrapf err "failed to verify secrets"), [])
  | (results, none) =>
    if results.length = 0 then
      (Outcome.nil, [Event.Infof "the %d ExternalSecrets are %s"
        [toString o.ExternalSecretsLen, o.ColorInfo "populated"]])
    else
      match o.LoadSchema (o.Join [o.Dir, ".jx", "gitops", "secret-schema.yaml"]) with
      | (_, some err) =>
        (Outcome.err (GoError.Wrapf err
          "failed to load survey schema used to prompt the user for questions"), [])
      | (schema, none) => runResults o schema results (fun _ => none) []

/-! ## Reading a list of events -/

/-- The event is a call that failed: a resolution, a `Write` or a
`NewEditor` that returned an error. -/
def Event.failed : Event → Bool
  | Event.NewEditor _ _ (some _) => true
  | Event.askForSecretValue _ _ _ _ (some _) => true
  | Event.Write _ _ (some _) => true
  | _ => false

/-- The event is a prompt or a warning, the events of `askForSecretValue`. -/
def Event.isInner : Event → Bool
  | Event.PickPassword _ _ _ _ => true
  | Event.Warn _ => true
  | _ => false

/-- The event is the return of a call of `askForSecretValue`. -/
def Event.isAsk : Event → Bool
  | Event.askForSecretValue _ _ _ _ _ => true
  | _ => false

/-- The event is a log line or a call of `factory.NewEditor`, the events of
the start of the loop over the results. -/
def Event.isSetup : Event → Bool
  | Event.Infof _ _ => true
  | Event.NewEditor _ _ _ => true
  | _ => false

/-- The event is a prompt. -/
def Event.isPrompt : Event → Bool
  | Event.PickPassword _ _ _ _ => true
  | _ => false

/-- The batches handed to `Write`, in order. -/
def writes (evs : List Event) : List KeyProperties :=
  evs.filterMap fun ev =>
    match ev with
    | Event.Write _ kp _ => some kp
    | _ => none

/-- The returns of `askForSecretValue`, in order: the key of the entry with
the property and the value returned for it. -/
def asks (evs : List Event) : List (String × PropertyValue) :=
  evs.filterMap fun ev =>
    match ev with
    | Event.askForSecretValue key property _ value _ => some (key, { Property := property, Value := value })
    | _ => none

/-- The backend types the log line of edit.go:92 names, in order: one for
each result the loop starts on. -/
def usings (evs : List Event) : List String :=
  evs.filterMap fun ev =>
    match ev with
    | Event.Infof format [backendType] => if format = usingFormat then some backendType else none
    | _ => none

/-- The calls of `factory.NewEditor` for an `ExternalSecret` of the backend
type `b`, in order. -/
def newEditorCalls (b : String) (evs : List Event) : List Event :=
  evs.filter fun ev =>
    match ev with
    | Event.NewEditor secret _ _ => decide (secret.Spec.BackendType = b)
    | _ => false

/-- One step of `pendingAfter`. -/
def pendStep (pending : List (String × PropertyValue)) : Event → List (String × PropertyValue)
  | Event.askForSecretValue key property _ value _ =>
    pending ++ [(key, { Property := property, Value := value })]
  | Event.Write _ _ _ => []
  | _ => pending

/-- The returns of `askForSecretValue` after the last `Write` of `evs`: what
is resolved and not yet handed to a `Write`. -/
def pendingAfter (evs : List Event) : List (String × PropertyValue) :=
  evs.foldl pendStep []

/-- One step of `lastUsing`. -/
def curStep (cur : Option String) : Event → Option String
  | Event.Infof format [backendType] => if format = usingFormat then some backendType else cur
  | _ => cur

/-- The backend type of the result the loop is on after `evs`: the one the
last log line of edit.go:92 names. -/
def lastUsing (evs : List Event) : Option String :=
  evs.foldl curStep none

/-- The editor the first successful call of `factory.NewEditor` for the
backend type `b` returned. -/
def editorOf : List Event → String → Option Editor
  | [], _ => none
  | Event.NewEditor secret (some ed) none :: rest, b =>
    if secret.Spec.BackendType = b then some ed else editorOf rest b
  | _ :: rest, b => editorOf rest b

/-- The calls of `Write`, in order: the editor the call goes through and the
batch it is handed. -/
def writeCalls (evs : List Event) : List (Editor × KeyProperties) :=
  evs.filterMap fun ev =>
    match ev with
    | Event.Write ed kp _ => some (ed, kp)
    | _ => none

/-- Each missing entry with the result that owns it, in the order of the
results and of their entries. -/
def ownedEntries (results : List SecretError) : List (SecretError × EntryError) :=
  results.flatMap fun r => r.EntryErrors.map fun e => (r, e)

/-- The key and the property names of a batch. -/
def KeyProperties.names (kp : KeyProperties) : String × List String :=
  (kp.Key, kp.Properties.map fun pv => pv.Property)

/-- The key and the property names of each missing entry of each result, in
the order of the results and of their entries. -/
def missingEntries (results : List SecretError) : List (String × List String) :=
  results.flatMap fun r => r.EntryErrors.map fun e => (e.Key, e.Properties)

/-- The backend type of a result. -/
def SecretError.backendType (r : SecretError) : String :=
  r.ExternalSecret.Spec.BackendType

/-- The schema finds a spec of the kind "confirm" for the property
`property` of the object `name` (edit.go:140, 167-169). -/
def isConfirm {Schema : Type} (o : Options Schema) (schema : Schema)
    (name property : String) : Bool :=
  match o.FindObjectProperty schema name property with
  | (some propertySpec, none) => decide (goMapIndex propertySpec.Labels o.LabelKind = "confirm")
  | _ => false

/-- The pair `pv` of a batch is the one of the property `property`, and its
value is empty when the property is of the kind "confirm". -/
def pairOf {Schema : Type} (o : Options Schema) (schema : Schema) (name : String)
    (property : String) (pv : PropertyValue) : Prop :=
  pv.Property = property ∧ (isConfirm o schema name property = true → pv.Value = "")

instance {Schema : Type} (o : Options Schema) (schema : Schema) (name property : String)
    (pv : PropertyValue) : Decidable (pairOf o schema name property pv) := by
  unfold pairOf
  exact inferInstance

/-- An instance for examples.  The schema knows the property `confirmed`, of
kind "confirm", and the property `token`; the operator aborts at the prompt
`db.broken` and answers every other prompt; no editor exists for the backend
type `unknown`; an editor is named by the number of events before its making;
the key `readonly` cannot be written. -/
def exampleOptions (results : List SecretError) : Options Unit where
  Dir := "."
  Verify := (results, none)
  ExternalSecretsLen := results.length
  Join := fun parts => String.intercalate "/" parts
  ColorInfo := fun text => text
  LoadSchema := fun _ => ((), none)
  FindObjectProperty := fun _ _ property =>
    if property = "confirmed" then
      (some { Question := "Sure?", Help := "say yes", Labels := [("kind", "confirm")] }, none)
    else if property = "token" then
      (some { Question := "API token", Help := "from the web page", Labels := [] }, none)
    else (none, none)
  LabelKind := "kind"
  NewEditor := fun hist secret =>
    if secret.Spec.BackendType = "unknown" then (none, some (GoError.New "unsupported"))
    else (some hist.length, none)
  PickPassword := fun _ message _ =>
    if message = "db.broken" then ("", some (GoError.New "aborted"))
    else ("value of " ++ message, none)
  Write := fun _ _ kp => if kp.Key = "readonly" then some (GoError.New "denied") else none
  KeyPropertiesString := fun kp => kp.Key

/-- Two results of the backend type `vault` and one of `local`, for examples. -/
def exampleResults : List SecretError :=
  [ { ExternalSecret := { Name := "a", Spec := { BackendType := "vault" } },
      EntryErrors := [{ Key := "db", Properties := ["user", "password"] }] },
    { ExternalSecret := { Name := "b", Spec := { BackendType := "local" } },
      EntryErrors := [{ Key := "git", Properties := ["token", "confirmed"] }] },
    { ExternalSecret := { Name := "c", Spec := { BackendType := "vault" } },
      EntryErrors := [{ Key := "s3", Properties := ["key"] }, { Key := "gcs", Properties := [] }] } ]

/-! ## Facts about the standard library model -/

theorem stringsIndexFrom_absent (ch : Char) (s : List Char) (i : Nat) (h : ch ∉ s) :
    stringsIndexFrom [ch] s i = -1 := by
  induction s generalizing i with
  | nil => simp [stringsIndexFrom]
  | cons c cs ih =>
    have hc : ¬ (ch = c) := fun e => h (List.mem_cons.mpr (Or.inl e))
    have hcs : ch ∉ cs := fun m => h (List.mem_cons_of_mem _ m)
    simp [stringsIndexFrom, List.isPrefixOf, hc, ih (i + 1) hcs]

theorem stringsIndexFrom_first (ch : Char) (pre post : List Char) (i : Nat) (h : ch ∉ pre) :
    stringsIndexFrom [ch] (pre ++ ch :: post) i = ((i + pre.length : Nat) : Int) := by
  induction pre generalizing i with
  | nil => simp [stringsIndexFrom, List.isPrefixOf]
  | cons c cs ih =>
    have hc : ¬ (ch = c) := fun e => h (List.mem_cons.mpr (Or.inl e))
    have hcs : ch ∉ cs := fun m => h (List.mem_cons_of_mem _ m)
    have := ih (i + 1) hcs
    simp only [List.cons_append, stringsIndexFrom, List.isPrefixOf]
    simp [hc, this]
    omega

theorem stringsIndexFrom_dot_absent (s : List Char) (i : Nat) (h : '.' ∉ s) :
    stringsIndexFrom ['.'] s i = -1 :=
  stringsIndexFrom_absent '.' s i h

theorem stringsIndexFrom_dot_first (pre post : List Char) (i : Nat) (h : '.' ∉ pre) :
    stringsIndexFrom ['.'] (pre ++ '.' :: post) i = ((i + pre.length : Nat) : Int) :=
  stringsIndexFrom_first '.' pre post i h

theorem exists_first_char (ch : Char) (s : List Char) (h : ch ∈ s) :
    ∃ pre post : List Char, s = pre ++ ch :: post ∧ ch ∉ pre := by
  induction s with
  | nil => simp at h
  | cons c cs ih =>
    by_cases hc : c = ch
    · exact ⟨[], cs, by simp [hc], by simp⟩
    · have hcs : ch ∈ cs := by
        rcases List.mem_cons.mp h with e | m
        · exact absurd e.symm hc
        · exact m
      obtain ⟨pre, post, e, hp⟩ := ih hcs
      refine ⟨c :: pre, post, by simp [e], ?_⟩
      intro m
      rcases List.mem_cons.mp m with e' | m'
      · exact hc e'.symm
      · exact hp m'

theorem stringsContains_colon (s : String) :
    stringsContains s ":" = true ↔ ':' ∈ s.data := by
  constructor
  · intro h
    by_contra hn
    have := stringsIndexFrom_absent ':' s.data 0 hn
    simp [stringsContains, stringsIndex, this] at h
  · intro h
    obtain ⟨pre, post, e, hp⟩ := exists_first_char ':' s.data h
    have := stringsIndexFrom_first ':' pre post 0 hp
    simp only [stringsContains, stringsIndex, e, decide_eq_true_eq]
    show stringsIndexFrom [':'] (pre ++ ':' :: post) 0 ≥ 0
    rw [this]
    omega

theorem exists_first_dot (s : List Char) (h : '.' ∈ s) :
    ∃ pre post : List Char, s = pre ++ '.' :: post ∧ '.' ∉ pre :=
  exists_first_char '.' s h

theorem retryOnError_skip (env : TemplateEnv) (ns name : String) (k m c : Nat)
    (lastErr : Option GoError) (sec : Option Secret)
    (hnf : ∀ i, i < k → notFoundAt env ns name (c + i) = true) :
    retryOnError env.IsNotFound (getSecretFunc env ns name) (k + m) lastErr (sec, c)
      = retryOnError env.IsNotFound (getSecretFunc env ns name) m
          (if k = 0 then lastErr else (env.Get (c + k - 1) ns name).2)
          (if k = 0 then sec else (env.Get (c + k - 1) ns name).1, c + k) := by
  induction k generalizing c lastErr sec with
  | zero => simp
  | succ k ih =>
    have h0 := hnf 0 (Nat.succ_pos k)
    simp only [Nat.add_zero, notFoundAt] at h0
    rcases hget : env.Get c ns name with ⟨s0, e0⟩
    rw [hget] at h0
    cases e0 with
    | none => simp at h0
    | some e =>
      simp only at h0
      have hnf1 : ∀ i, i < k → notFoundAt env ns name (c + 1 + i) = true := by
        intro i hi
        have := hnf (i + 1) (Nat.succ_lt_succ hi)
        rwa [show c + (i + 1) = c + 1 + i by omega] at this
      rw [show k + 1 + m = (k + m) + 1 by omega]
      simp only [retryOnError, getSecretFunc, hget, h0, if_true]
      rw [ih (c + 1) (some e) s0 hnf1]
      by_cases hk : k = 0
      · subst hk
        simp [hget]
      · have e1 : c + 1 + k - 1 = c + (k + 1) - 1 := by omega
        have e2 : c + 1 + k = c + (k + 1) := by omega
        simp only [hk, if_false, e1, e2, Nat.succ_ne_zero]

theorem getSecretWithRetry_found (env : TemplateEnv) (ns name : String) (k : Nat)
    (s : Option Secret) (hk : k < DefaultBackoffSteps) (hnf : NotFoundUntil env ns name k)
    (hget : env.Get k ns name = (s, none)) :
    getSecretWithRetry env ns name = (s, none) := by
  have hsk := retryOnError_skip env ns name k (DefaultBackoffSteps - k) 0 none none
    (by intro i hi; simpa using hnf i hi)
  rw [show k + (DefaultBackoffSteps - k) = DefaultBackoffSteps by omega] at hsk
  obtain ⟨m, hm⟩ : ∃ m, DefaultBackoffSteps - k = m + 1 := ⟨DefaultBackoffSteps - k - 1, by omega⟩
  rw [hm] at hsk
  rw [getSecretWithRetry, hsk]
  simp only [retryOnError, getSecretFunc, Nat.zero_add, hget]

theorem getSecretWithRetry_other (env : TemplateEnv) (ns name : String) (k : Nat)
    (s : Option Secret) (e : GoError) (hk : k < DefaultBackoffSteps)
    (hnf : NotFoundUntil env ns name k)
    (hget : env.Get k ns name = (s, some e)) (he : env.IsNotFound e = false) :
    getSecretWithRetry env ns name = (s, some e) := by
  have hsk := retryOnError_skip env ns name k (DefaultBackoffSteps - k) 0 none none
    (by intro i hi; simpa using hnf i hi)
  rw [show k + (DefaultBackoffSteps - k) = DefaultBackoffSteps by omega] at hsk
  obtain ⟨m, hm⟩ : ∃ m, DefaultBackoffSteps - k = m + 1 := ⟨DefaultBackoffSteps - k - 1, by omega⟩
  rw [hm] at hsk
  rw [getSecretWithRetry, hsk]
  simp [retryOnError, getSecretFunc, hget, he]

theorem getSecretWithRetry_exhausted (env : TemplateEnv) (ns name : String)
    (hnf : NotFoundUntil env ns name DefaultBackoffSteps) :
    ∃ e, env.IsNotFound e = true ∧
      getSecretWithRetry env ns name
        = ((env.Get (DefaultBackoffSteps - 1) ns name).1, some e) := by
  have hsk := retryOnError_skip env ns name DefaultBackoffSteps 0 0 none none
    (by intro i hi; simpa using hnf i hi)
  have hlast := hnf (DefaultBackoffSteps - 1) (by decide)
  simp only [notFoundAt] at hlast
  rcases hget : env.Get (DefaultBackoffSteps - 1) ns name with ⟨s, err⟩
  rw [hget] at hlast
  cases err with
  | none => simp at hlast
  | some e =>
    refine ⟨e, hlast, ?_⟩
    simp only [Nat.add_zero, Nat.zero_add] at hsk
    rw [getSecretWithRetry, hsk]
    have hne : ¬ (DefaultBackoffSteps = 0) := by decide
    simp only [retryOnError, hget, if_neg hne]

theorem ResolveResourceNames_qualified (ns localName : List Char) (currentNamespace : String)
    (h : '.' ∉ ns) :
    ResolveResourceNames (String.mk (ns ++ '.' :: localName)) currentNamespace
      = some (String.mk localName, String.mk ns) := by
  have hidx : stringsIndex (String.mk (ns ++ '.' :: localName)) "."
      = ((ns.length : Nat) : Int) := by
    have := stringsIndexFrom_dot_first ns localName 0 h
    simpa [stringsIndex] using this
  have hlt : ¬ (((ns.length : Nat) : Int) < 0) := by omega
  have h1 : goSliceFrom (String.mk (ns ++ '.' :: localName)) (((ns.length : Nat) : Int) + 1)
      = some (String.mk localName) := by
    have hcond : (0 : Int) ≤ (ns.length : Int) + 1 ∧
        (ns.length : Int) + 1 ≤ ((ns ++ '.' :: localName).length : Int) ∧
        ((ns ++ '.' :: localName).length : Int) ≤ ((ns ++ '.' :: localName).length : Int) := by
      simp only [List.length_append, List.length_cons]
      push_cast
      omega
    have htn : ((ns.length : Int) + 1).toNat = ns.length + 1 := by omega
    simp only [goSliceFrom, goSlice, if_pos hcond, Int.toNat_ofNat, htn, List.take_length]
    congr 2
    rw [show ns ++ '.' :: localName = (ns ++ ['.']) ++ localName by simp]
    rw [List.drop_append_of_le_length (by simp)]
    simp
  have h2 : goSliceTo (String.mk (ns ++ '.' :: localName)) ((ns.length : Nat) : Int)
      = some (String.mk ns) := by
    have hcond : (0 : Int) ≤ 0 ∧ (0 : Int) ≤ (ns.length : Int) ∧
        (ns.length : Int) ≤ ((ns ++ '.' :: localName).length : Int) := by
      refine ⟨le_refl _, by omega, ?_⟩
      rw [List.length_append]
      exact_mod_cast Nat.le_add_right _ _
    simp only [goSliceTo, goSlice, if_pos hcond, Int.toNat_ofNat, Int.toNat_zero, List.drop_zero]
    congr 2
    simp
  simp only [ResolveResourceNames, hidx, if_neg hlt, h1, h2]

theorem ResolveResourceNames_unqualified (name currentNamespace : String)
    (h : '.' ∉ name.data) :
    ResolveResourceNames name currentNamespace = some (name, currentNamespace) := by
  have hidx : stringsIndex name "." = -1 := by
    have := stringsIndexFrom_dot_absent name.data 0 h
    simpa [stringsIndex] using this
  simp [ResolveResourceNames, hidx]

/-! ## C1 -/

/-- C1: `ResolveResourceNames(name, currentNamespace)` returns
`(localName, namespace)`; for a name containing `.` the namespace is the part
before the first `.` (so it contains no `.`) and the local name is everything
after it; for a name without `.` the result is `(name, currentNamespace)`; no
input makes it panic. -/
theorem ResolveResourceNames_contract (name currentNamespace : String) :
    ('.' ∈ name.data →
      ∃ ns localName : String, name = ns ++ "." ++ localName ∧ '.' ∉ ns.data ∧
        ResolveResourceNames name currentNamespace = some (localName, ns)) ∧
    (∀ ns localName : String, name = ns ++ "." ++ localName → '.' ∉ ns.data →
        ResolveResourceNames name currentNamespace = some (localName, ns)) ∧
    ('.' ∉ name.data →
        ResolveResourceNames name currentNamespace = some (name, currentNamespace)) ∧
    (ResolveResourceNames name currentNamespace).isSome = true := by
  have key : ∀ ns localName : String, name = ns ++ "." ++ localName → '.' ∉ ns.data →
      ResolveResourceNames name currentNamespace = some (localName, ns) := by
    intro ns localName e hns
    have := ResolveResourceNames_qualified ns.data localName.data currentNamespace hns
    have e2 : name = String.mk (ns.data ++ '.' :: localName.data) := by
      rw [e]
      apply String.ext
      simp [String.data_append]
    rw [e2]
    exact this
  have split : '.' ∈ name.data →
      ∃ ns localName : String, name = ns ++ "." ++ localName ∧ '.' ∉ ns.data ∧
        ResolveResourceNames name currentNamespace = some (localName, ns) := by
    intro hmem
    obtain ⟨pre, post, e, hp⟩ := exists_first_dot name.data hmem
    have e2 : name = String.mk pre ++ "." ++ String.mk post := by
      apply String.ext
      simp [String.data_append, e]
    exact ⟨String.mk pre, String.mk post, e2, hp, key _ _ e2 hp⟩
  refine ⟨split, key, ResolveResourceNames_unqualified name currentNamespace, ?_⟩
  by_cases hmem : '.' ∈ name.data
  · obtain ⟨ns, localName, _, _, e⟩ := split hmem
    simp [e]
  · simp [ResolveResourceNames_unqualified name currentNamespace hmem]

theorem ResolveResourceNames_contract_witness :
    ResolveResourceNames "ns.name" "cur" = some ("name", "ns") ∧
    ResolveResourceNames "name" "cur" = some ("name", "cur") ∧
    ResolveResourceNames ".name." "cur" = some ("name.", "") :=
  ⟨(ResolveResourceNames_contract "ns.name" "cur").2.1 "ns" "name" (by decide) (by decide),
   (ResolveResourceNames_contract "name" "cur").2.2.1 (by decide),
   (ResolveResourceNames_contract ".name." "cur").2.1 "" "name." (by decide) (by decide)⟩

/-! ## Facts about `askForSecretValue` -/

theorem askForSecretValue_none {Schema : Type} (o : Options Schema) (schema : Schema)
    (hist : List Event) (e : EntryError) (property name : String)
    (hfind : o.FindObjectProperty schema name property = (none, none)) :
    askForSecretValue o schema hist e property name
      = (match (o.PickPassword hist (e.Key ++ "." ++ property) "").2 with
          | some err => ("", some (GoError.Wrapf err
              ("failed to enter property " ++ property ++ " for key " ++ e.Key ++
                " on ExternalSecret " ++ name)))
          | none => ((o.PickPassword hist (e.Key ++ "." ++ property) "").1, none),
         [Event.PickPassword (e.Key ++ "." ++ property) ""
            (o.PickPassword hist (e.Key ++ "." ++ property) "").1
            (o.PickPassword hist (e.Key ++ "." ++ property) "").2]) := by
  rcases hp : o.PickPassword hist (e.Key ++ "." ++ property) "" with ⟨v, _ | err⟩ <;>
    simp [askForSecretValue, hfind, propertyMessage, hp]

theorem askForSecretValue_confirm {Schema : Type} (o : Options Schema) (schema : Schema)
    (hist : List Event) (e : EntryError) (property name : String) (propertySpec : Property)
    (hfind : o.FindObjectProperty schema name property = (some propertySpec, none))
    (hkind : goMapIndex propertySpec.Labels o.LabelKind = "confirm") :
    askForSecretValue o schema hist e property name
      = (("", none), [Event.Warn "implement confirm"]) := by
  simp [askForSecretValue, hfind, hkind]

theorem askForSecretValue_default {Schema : Type} (o : Options Schema) (schema : Schema)
    (hist : List Event) (e : EntryError) (property name : String) (propertySpec : Property)
    (hfind : o.FindObjectProperty schema name property = (some propertySpec, none))
    (hkind : goMapIndex propertySpec.Labels o.LabelKind ≠ "confirm") :
    askForSecretValue o schema hist e property name
      = (o.PickPassword hist propertySpec.Question propertySpec.Help,
         [Event.PickPassword propertySpec.Question propertySpec.Help
            (o.PickPassword hist propertySpec.Question propertySpec.Help).1
            (o.PickPassword hist propertySpec.Question propertySpec.Help).2]) := by
  simp [askForSecretValue, hfind, hkind]

theorem askForSecretValue_inner {Schema : Type} (o : Options Schema) (schema : Schema)
    (hist : List Event) (e : EntryError) (property name : String) :
    ∀ ev ∈ (askForSecretValue o schema hist e property name).2, ev.isInner = true := by
  rcases hfind : o.FindObjectProperty schema name property with ⟨_ | propertySpec, _ | err⟩
  · rw [askForSecretValue_none o schema hist e property name hfind]
    simp [Event.isInner]
  · simp [askForSecretValue, hfind]
  · by_cases hkind : goMapIndex propertySpec.Labels o.LabelKind = "confirm"
    · rw [askForSecretValue_confirm o schema hist e property name propertySpec hfind hkind]
      simp [Event.isInner]
    · rw [askForSecretValue_default o schema hist e property name propertySpec hfind hkind]
      simp [Event.isInner]
  · simp [askForSecretValue, hfind]

theorem askForSecretValue_isConfirm {Schema : Type} (o : Options Schema) (schema : Schema)
    (hist : List Event) (e : EntryError) (property name : String)
    (h : isConfirm o schema name property = true) :
    askForSecretValue o schema hist e property name
      = (("", none), [Event.Warn "implement confirm"]) := by
  rcases hfind : o.FindObjectProperty schema name property with ⟨_ | propertySpec, _ | err⟩
  · simp [isConfirm, hfind] at h
  · simp [isConfirm, hfind] at h
  · simp only [isConfirm, hfind, decide_eq_true_eq] at h
    exact askForSecretValue_confirm o schema hist e property name propertySpec hfind h
  · simp [isConfirm, hfind] at h

/-! ## Facts about lists of events -/

theorem asks_of_inner (l : List Event) (h : ∀ ev ∈ l, ev.isInner = true) : asks l = [] := by
  induction l with
  | nil => rfl
  | cons ev rest ih =>
    have h1 := h ev (List.mem_cons_self _ _)
    have h2 := ih (fun x hx => h x (List.mem_cons_of_mem _ hx))
    cases ev <;> simp_all [asks, Event.isInner]

theorem failed_of_inner (ev : Event) (h : ev.isInner = true) : ev.failed = false := by
  cases ev <;> simp_all [Event.isInner, Event.failed]

theorem split_append {σ : Type} (step : σ → Event → σ) (P : σ → Event → Prop) (s : σ)
    (l1 l2 : List Event)
    (h1 : ∀ pre ev post, l1 = pre ++ ev :: post → P (pre.foldl step s) ev)
    (h2 : ∀ pre ev post, l2 = pre ++ ev :: post → P (pre.foldl step (l1.foldl step s)) ev) :
    ∀ pre ev post, l1 ++ l2 = pre ++ ev :: post → P (pre.foldl step s) ev := by
  intro pre ev post h
  rcases List.append_eq_append_iff.mp h with ⟨a, hpre, hl2⟩ | ⟨c, hl1, hc⟩
  · have := h2 a ev post hl2
    rw [hpre, List.foldl_append]
    exact this
  · cases c with
    | nil =>
      simp only [List.nil_append] at hc
      simp only [List.append_nil] at hl1
      have := h2 [] ev post hc.symm
      simp only [List.foldl_nil] at this
      rw [← hl1]
      exact this
    | cons x c =>
      simp only [List.cons_append, List.cons.injEq] at hc
      obtain ⟨hx, _⟩ := hc
      subst hx
      exact h1 pre ev c hl1

theorem failLast_append (Q : Prop) (l1 l2 : List Event)
    (h1 : ∀ ev ∈ l1, ev.failed = false)
    (h2 : ∀ pre ev post, l2 = pre ++ ev :: post → ev.failed = true → post = [] ∧ Q) :
    ∀ pre ev post, l1 ++ l2 = pre ++ ev :: post → ev.failed = true → post = [] ∧ Q := by
  intro pre ev post h hf
  rcases List.append_eq_append_iff.mp h with ⟨a, _, hl2⟩ | ⟨c, hl1, hc⟩
  · exact h2 a ev post hl2 hf
  · cases c with
    | nil =>
      simp only [List.nil_append] at hc
      exact h2 [] ev post hc.symm hf
    | cons x c =>
      simp only [List.cons_append, List.cons.injEq] at hc
      obtain ⟨hx, _⟩ := hc
      subst hx
      have := h1 ev (by rw [hl1]; simp)
      rw [this] at hf
      exact absurd hf (by simp)

theorem failLast_of_clean (Q : Prop) (l : List Event) (h : ∀ ev ∈ l, ev.failed = false) :
    ∀ pre ev post, l = pre ++ ev :: post → ev.failed = true → post = [] ∧ Q := by
  intro pre ev post hl hf
  have := h ev (by rw [hl]; simp)
  rw [this] at hf
  exact absurd hf (by simp)

theorem quiet_writes (l : List Event) (h : ∀ ev ∈ l, ev.isInner = true ∨ ev.isAsk = true) :
    writes l = [] := by
  induction l with
  | nil => rfl
  | cons ev rest ih =>
    have h1 := h ev (List.mem_cons_self _ _)
    have h2 := ih (fun x hx => h x (List.mem_cons_of_mem _ hx))
    clear h ih
    unfold writes at h2 ⊢
    cases ev <;> simp [Event.isInner, Event.isAsk] at h1 <;> simp [h2]

theorem quiet_usings (l : List Event) (h : ∀ ev ∈ l, ev.isInner = true ∨ ev.isAsk = true) :
    usings l = [] := by
  induction l with
  | nil => rfl
  | cons ev rest ih =>
    have h1 := h ev (List.mem_cons_self _ _)
    have h2 := ih (fun x hx => h x (List.mem_cons_of_mem _ hx))
    clear h ih
    unfold usings at h2 ⊢
    cases ev <;> simp [Event.isInner, Event.isAsk] at h1 <;> simp [h2]

theorem quiet_newEditorCalls (b : String) (l : List Event)
    (h : ∀ ev ∈ l, ev.isInner = true ∨ ev.isAsk = true) : newEditorCalls b l = [] := by
  induction l with
  | nil => rfl
  | cons ev rest ih =>
    have h1 := h ev (List.mem_cons_self _ _)
    have h2 := ih (fun x hx => h x (List.mem_cons_of_mem _ hx))
    clear h ih
    unfold newEditorCalls at h2 ⊢
    cases ev <;> simp [Event.isInner, Event.isAsk] at h1 <;> simp [h2]

theorem quiet_pendStep (l : List Event) (h : ∀ ev ∈ l, ev.isInner = true ∨ ev.isAsk = true)
    (acc : List (String × PropertyValue)) : l.foldl pendStep acc = acc ++ asks l := by
  induction l generalizing acc with
  | nil => simp [asks]
  | cons ev rest ih =>
    have h1 := h ev (List.mem_cons_self _ _)
    have h2 := fun acc => ih (fun x hx => h x (List.mem_cons_of_mem _ hx)) acc
    clear h ih
    unfold asks at h2 ⊢
    cases ev <;> simp [Event.isInner, Event.isAsk] at h1 <;> simp [h2, pendStep]

theorem quiet_curStep (l : List Event) (h : ∀ ev ∈ l, ev.isInner = true ∨ ev.isAsk = true)
    (cur : Option String) : l.foldl curStep cur = cur := by
  induction l generalizing cur with
  | nil => rfl
  | cons ev rest ih =>
    have h1 := h ev (List.mem_cons_self _ _)
    have h2 := fun cur => ih (fun x hx => h x (List.mem_cons_of_mem _ hx)) cur
    clear h ih
    cases ev <;> simp [Event.isInner, Event.isAsk] at h1 <;> simp [h2, curStep]

theorem quiet_no_write (l : List Event) (h : ∀ ev ∈ l, ev.isInner = true ∨ ev.isAsk = true)
    (pre post : List Event) (ed : Editor) (kp : KeyProperties) (err : Option GoError) :
    l ≠ pre ++ Event.Write ed kp err :: post := by
  intro hl
  have := h (Event.Write ed kp err) (by rw [hl]; simp)
  simp [Event.isInner, Event.isAsk] at this

theorem setup_writes (l : List Event) (h : ∀ ev ∈ l, ev.isSetup = true) : writes l = [] := by
  induction l with
  | nil => rfl
  | cons ev rest ih =>
    have h1 := h ev (List.mem_cons_self _ _)
    have h2 := ih (fun x hx => h x (List.mem_cons_of_mem _ hx))
    clear h ih
    unfold writes at h2 ⊢
    cases ev <;> simp [Event.isSetup] at h1 <;> simp [h2]

theorem setup_pendStep (l : List Event) (h : ∀ ev ∈ l, ev.isSetup = true)
    (acc : List (String × PropertyValue)) : l.foldl pendStep acc = acc := by
  induction l generalizing acc with
  | nil => rfl
  | cons ev rest ih =>
    have h1 := h ev (List.mem_cons_self _ _)
    have h2 := fun acc => ih (fun x hx => h x (List.mem_cons_of_mem _ hx)) acc
    clear h ih
    cases ev <;> simp [Event.isSetup] at h1 <;> simp [h2, pendStep]

theorem setup_no_write (l : List Event) (h : ∀ ev ∈ l, ev.isSetup = true)
    (pre post : List Event) (ed : Editor) (kp : KeyProperties) (err : Option GoError) :
    l ≠ pre ++ Event.Write ed kp err :: post := by
  intro hl
  have := h (Event.Write ed kp err) (by rw [hl]; simp)
  simp [Event.isSetup] at this

theorem entry_usings (l : List Event) (h : ∀ ev ∈ l, ev.isSetup = false) : usings l = [] := by
  induction l with
  | nil => rfl
  | cons ev rest ih =>
    have h1 := h ev (List.mem_cons_self _ _)
    have h2 := ih (fun x hx => h x (List.mem_cons_of_mem _ hx))
    clear h ih
    unfold usings at h2 ⊢
    cases ev <;> simp [Event.isSetup] at h1 <;> simp [h2]

theorem entry_curStep (l : List Event) (h : ∀ ev ∈ l, ev.isSetup = false)
    (cur : Option String) : l.foldl curStep cur = cur := by
  induction l generalizing cur with
  | nil => rfl
  | cons ev rest ih =>
    have h1 := h ev (List.mem_cons_self _ _)
    have h2 := fun cur => ih (fun x hx => h x (List.mem_cons_of_mem _ hx)) cur
    clear h ih
    cases ev <;> simp [Event.isSetup] at h1 <;> simp [h2, curStep]

theorem entry_newEditorCalls (b : String) (l : List Event)
    (h : ∀ ev ∈ l, ev.isSetup = false) : newEditorCalls b l = [] := by
  induction l with
  | nil => rfl
  | cons ev rest ih =>
    have h1 := h ev (List.mem_cons_self _ _)
    have h2 := ih (fun x hx => h x (List.mem_cons_of_mem _ hx))
    clear h ih
    unfold newEditorCalls at h2 ⊢
    cases ev <;> simp [Event.isSetup] at h1 <;> simp [h2]

theorem entry_editorOf (l rest : List Event) (b : String)
    (h : ∀ ev ∈ l, ev.isSetup = false) : editorOf (l ++ rest) b = editorOf rest b := by
  induction l with
  | nil => rfl
  | cons ev l ih =>
    have h1 := h ev (List.mem_cons_self _ _)
    have h2 := ih (fun x hx => h x (List.mem_cons_of_mem _ hx))
    clear h ih
    cases ev <;> simp [Event.isSetup] at h1 <;> simp [h2, editorOf]

theorem setup_of_entry_event (secEditor : Option Editor) (ev : Event)
    (h : ev.isInner = true ∨ ev.isAsk = true ∨
      ∃ ed kp err, ev = Event.Write ed kp err ∧ secEditor = some ed) :
    ev.isSetup = false := by
  rcases h with h | h | ⟨ed, kp, err, h, _⟩
  · cases ev <;> simp_all [Event.isInner, Event.isSetup]
  · cases ev <;> simp_all [Event.isAsk, Event.isSetup]
  · subst h
    rfl

/-! ## Facts about the loop over the properties -/

theorem runProperties_spec {Schema : Type} (o : Options Schema) (schema : Schema)
    (e : EntryError) (name : String) :
    ∀ (props : List String) (kp : KeyProperties) (hist : List Event),
      (∀ ev ∈ (runProperties o schema e name props kp hist).2,
        ev.isInner = true ∨ ev.isAsk = true) ∧
      (∀ kp1, (runProperties o schema e name props kp hist).1 = Except.ok kp1 →
        kp1.Key = kp.Key ∧
        (∀ ev ∈ (runProperties o schema e name props kp hist).2, ev.failed = false) ∧
        ∃ tail, kp1.Properties = kp.Properties ++ tail ∧
          asks (runProperties o schema e name props kp hist).2
            = tail.map (fun pv => (e.Key, pv)) ∧
          List.Forall₂ (pairOf o schema name) props tail) ∧
      (∀ err, (runProperties o schema e name props kp hist).1 = Except.error err →
        ∃ pre ev, (runProperties o schema e name props kp hist).2 = pre ++ [ev] ∧
          ev.failed = true ∧ ev.isAsk = true ∧
          (∀ x ∈ pre, x.failed = false) ∧ (∀ x ∈ pre, x.isInner = true ∨ x.isAsk = true)) := by
  intro props
  induction props with
  | nil =>
    intro kp hist
    refine ⟨by simp [runProperties], ?_, by simp [runProperties]⟩
    intro kp1 h
    simp only [runProperties, Except.ok.injEq] at h
    subst h
    exact ⟨rfl, by simp [runProperties], [], by simp, by simp [runProperties, asks],
      List.Forall₂.nil⟩
  | cons property rest ih =>
    intro kp hist
    have hinner := askForSecretValue_inner o schema hist e property name
    have hconf := askForSecretValue_isConfirm o schema hist e property name
    rcases hask : askForSecretValue o schema hist e property name with ⟨⟨value, err⟩, evsA⟩
    rw [hask] at hinner hconf
    simp only at hinner
    have hasksA : asks evsA = [] := asks_of_inner evsA hinner
    have hcleanA : ∀ x ∈ evsA, x.failed = false := fun x hx => failed_of_inner x (hinner x hx)
    cases err with
    | some err0 =>
      simp only [runProperties, hask]
      refine ⟨?_, by simp, ?_⟩
      · intro ev hev
        rcases List.mem_append.mp hev with h | h
        · exact Or.inl (hinner ev h)
        · simp only [List.mem_singleton] at h
          subst h
          exact Or.inr rfl
      · intro err _
        exact ⟨evsA, _, rfl, rfl, rfl, hcleanA, fun x hx => Or.inl (hinner x hx)⟩
    | none =>
      obtain ⟨ih1, ih2, ih3⟩ := ih
        { kp with Properties := kp.Properties ++ [{ Property := property, Value := value }] }
        (hist ++ (evsA ++ [Event.askForSecretValue e.Key property name value none]))
      rcases hrec : runProperties o schema e name rest
        { kp with Properties := kp.Properties ++ [{ Property := property, Value := value }] }
        (hist ++ (evsA ++ [Event.askForSecretValue e.Key property name value none]))
        with ⟨res, evs2⟩
      rw [hrec] at ih1 ih2 ih3
      simp only at ih1 ih2 ih3
      simp only [runProperties, hask, hrec]
      have hhead : ∀ ev ∈ evsA ++ [Event.askForSecretValue e.Key property name value none],
          (ev.isInner = true ∨ ev.isAsk = true) ∧ ev.failed = false := by
        intro ev hev
        rcases List.mem_append.mp hev with h | h
        · exact ⟨Or.inl (hinner ev h), hcleanA ev h⟩
        · simp only [List.mem_singleton] at h
          subst h
          exact ⟨Or.inr rfl, rfl⟩
      refine ⟨?_, ?_, ?_⟩
      · intro ev hev
        rcases List.mem_append.mp hev with h | h
        · exact (hhead ev h).1
        · exact ih1 ev h
      · intro kp1 hk
        obtain ⟨hkey, hclean, tail, htail, hasks, hfor⟩ := ih2 kp1 hk
        refine ⟨hkey, ?_, { Property := property, Value := value } :: tail, ?_, ?_, ?_⟩
        · intro ev hev
          rcases List.mem_append.mp hev with h | h
          · exact (hhead ev h).2
          · exact hclean ev h
        · simp [htail]
        · simp only [asks, List.filterMap_append] at hasks hasksA ⊢
          simp [hasks, hasksA]
        · refine List.Forall₂.cons ⟨rfl, ?_⟩ hfor
          intro hc
          have := hconf hc
          simp only [Prod.mk.injEq] at this
          exact this.1.1
      · intro err hk
        obtain ⟨pre, ev, hsplit, hf, ha, hpre, hpre2⟩ := ih3 err hk
        refine ⟨(evsA ++ [Event.askForSecretValue e.Key property name value none]) ++ pre, ev,
          by simp [hsplit], hf, ha, ?_, ?_⟩
        · intro x hx
          rcases List.mem_append.mp hx with h | h
          · exact (hhead x h).2
          · exact hpre x h
        · intro x hx
          rcases List.mem_append.mp hx with h | h
          · exact (hhead x h).1
          · exact hpre2 x h

/-! ## Facts about the body of the loop over the entries -/

theorem runEntry_spec {Schema : Type} (o : Options Schema) (schema : Schema)
    (secEditor : Option Editor) (name : String) (e : EntryError) (hist : List Event) :
    ∃ evsP, (∀ ev ∈ evsP, ev.isInner = true ∨ ev.isAsk = true) ∧
      ((∃ ed kp werr, secEditor = some ed ∧
          (runEntry o schema secEditor name e hist).2 = evsP ++ [Event.Write ed kp werr] ∧
          (∀ ev ∈ evsP, ev.failed = false) ∧
          asks evsP = kp.Properties.map (fun pv => (kp.Key, pv)) ∧
          kp.Key = e.Key ∧ List.Forall₂ (pairOf o schema name) e.Properties kp.Properties ∧
          werr = o.Write (hist ++ evsP) ed kp ∧
          ((werr = none ∧ (runEntry o schema secEditor name e hist).1 = Outcome.nil) ∨
           (∃ we err, werr = some we ∧
              (runEntry o schema secEditor name e hist).1 = Outcome.err err))) ∨
       (∃ err pre ev, (runEntry o schema secEditor name e hist).1 = Outcome.err err ∧
          (runEntry o schema secEditor name e hist).2 = evsP ∧ evsP = pre ++ [ev] ∧
          ev.failed = true ∧ ev.isAsk = true ∧ ∀ x ∈ pre, x.failed = false) ∨
       ((runEntry o schema secEditor name e hist).1 = Outcome.panic ∧ secEditor = none ∧
          (runEntry o schema secEditor name e hist).2 = evsP ∧
          ∀ ev ∈ evsP, ev.failed = false)) := by
  obtain ⟨hq, hok, herr⟩ :=
    runProperties_spec o schema e name e.Properties { Key := e.Key, Properties := [] } hist
  rcases hrp : runProperties o schema e name e.Properties { Key := e.Key, Properties := [] } hist
    with ⟨res, evsP⟩
  rw [hrp] at hq hok herr
  simp only at hq hok herr
  refine ⟨evsP, hq, ?_⟩
  cases res with
  | error err =>
    obtain ⟨pre, ev, hsplit, hf, ha, hpre, _⟩ := herr err rfl
    refine Or.inr (Or.inl ⟨err, pre, ev, ?_, ?_, hsplit, hf, ha, hpre⟩) <;>
      simp [runEntry, hrp]
  | ok kp =>
    obtain ⟨hkey, hclean, tail, htail, hasks, hfor⟩ := hok kp rfl
    simp only [List.nil_append] at htail
    subst htail
    cases secEditor with
    | none =>
      refine Or.inr (Or.inr ⟨?_, rfl, ?_, hclean⟩) <;> simp [runEntry, hrp]
    | some ed =>
      refine Or.inl ⟨ed, kp, o.Write (hist ++ evsP) ed kp, rfl, ?_, hclean, ?_, hkey, hfor, rfl, ?_⟩
      · cases hw : o.Write (hist ++ evsP) ed kp <;> simp [runEntry, hrp, hw]
      · rw [hasks, hkey]
      · cases hw : o.Write (hist ++ evsP) ed kp with
        | none => exact Or.inl ⟨rfl, by simp [runEntry, hrp, hw]⟩
        | some we =>
          exact Or.inr ⟨we, GoError.Wrapf we ("failed to save properties " ++
            o.KeyPropertiesString kp ++ " on ExternalSecret " ++ name), rfl,
            by simp [runEntry, hrp, hw]⟩

theorem names_of_pairs {Schema : Type} (o : Options Schema) (schema : Schema) (name : String)
    (props : List String) (tail : List PropertyValue)
    (h : List.Forall₂ (pairOf o schema name) props tail) :
    tail.map (fun pv => pv.Property) = props := by
  induction h with
  | nil => rfl
  | cons hp _ ih => simp [hp.1, ih]

theorem runEntry_facts {Schema : Type} (o : Options Schema) (schema : Schema)
    (secEditor : Option Editor) (name : String) (e : EntryError) (hist : List Event) :
    (∀ ev ∈ (runEntry o schema secEditor name e hist).2,
      ev.isInner = true ∨ ev.isAsk = true ∨
        ∃ ed kp err, ev = Event.Write ed kp err ∧ secEditor = some ed ∧ kp.Key = e.Key ∧
          List.Forall₂ (pairOf o schema name) e.Properties kp.Properties) ∧
    ((writes (runEntry o schema secEditor name e hist).2).map KeyProperties.names
      <+: [(e.Key, e.Properties)]) ∧
    ((runEntry o schema secEditor name e hist).1 = Outcome.nil →
      (writes (runEntry o schema secEditor name e hist).2).map KeyProperties.names
        = [(e.Key, e.Properties)] ∧
      (runEntry o schema secEditor name e hist).2.foldl pendStep [] = [] ∧
      ∀ ev ∈ (runEntry o schema secEditor name e hist).2, ev.failed = false) ∧
    (∀ pre ev post, (runEntry o schema secEditor name e hist).2 = pre ++ ev :: post →
      ∀ ed kp err, ev = Event.Write ed kp err →
        pre.foldl pendStep [] = kp.Properties.map (fun pv => (kp.Key, pv))) ∧
    (∀ pre ev post, (runEntry o schema secEditor name e hist).2 = pre ++ ev :: post →
      ev.failed = true →
        post = [] ∧ ∃ err, (runEntry o schema secEditor name e hist).1 = Outcome.err err) ∧
    ((∃ ev ∈ (runEntry o schema secEditor name e hist).2, ev.failed = true ∧ ev.isAsk = true) →
      writes (runEntry o schema secEditor name e hist).2 = []) := by
  obtain ⟨evsP, hq, hcase⟩ := runEntry_spec o schema secEditor name e hist
  have hq3 : ∀ ev ∈ evsP, ev.isInner = true ∨ ev.isAsk = true ∨
      ∃ ed kp err, ev = Event.Write ed kp err ∧ secEditor = some ed ∧ kp.Key = e.Key ∧
        List.Forall₂ (pairOf o schema name) e.Properties kp.Properties := by
    intro ev hev
    rcases hq ev hev with h | h
    · exact Or.inl h
    · exact Or.inr (Or.inl h)
  have hnow : ∀ pre ev post, evsP = pre ++ ev :: post → ∀ ed kp err, ev = Event.Write ed kp err →
      pre.foldl pendStep [] = kp.Properties.map (fun pv => (kp.Key, pv)) := by
    intro pre ev post hl ed kp err hev
    subst hev
    exact absurd hl (quiet_no_write evsP hq pre post ed kp err)
  rcases hcase with ⟨ed, kp, werr, hsec, hevs, hclean, hasks, hkey, hfor, _, hout⟩ |
    ⟨err, pre, ev, hout, hevs, hsplit, hf, ha, hpre⟩ | ⟨hout, hsec, hevs, hclean⟩
  · have hnames : kp.names = (e.Key, e.Properties) := by
      simp [KeyProperties.names, hkey, names_of_pairs o schema name _ _ hfor]
    have hw : writes (runEntry o schema secEditor name e hist).2 = [kp] := by
      rw [hevs]
      have hq0 := quiet_writes evsP hq
      simp only [writes, List.filterMap_append] at hq0 ⊢
      rw [hq0]
      rfl
    rw [hevs] at *
    refine ⟨?_, ?_, ?_, ?_, ?_, ?_⟩
    · intro x hx
      rcases List.mem_append.mp hx with h | h
      · exact hq3 x h
      · simp only [List.mem_singleton] at h
        exact Or.inr (Or.inr ⟨ed, kp, werr, h, hsec, hkey, hfor⟩)
    · rw [hw]
      simp [hnames]
    · intro hnil
      rcases hout with ⟨hwerr, _⟩ | ⟨we, err, _, herr⟩
      · refine ⟨by rw [hw]; simp [hnames], by simp [List.foldl_append, pendStep], ?_⟩
        intro x hx
        rcases List.mem_append.mp hx with h | h
        · exact hclean x h
        · simp only [List.mem_singleton] at h
          subst h
          subst hwerr
          rfl
      · rw [herr] at hnil
        exact absurd hnil (by simp)
    · refine split_append pendStep
        (fun st ev => ∀ ed kp err, ev = Event.Write ed kp err →
          st = kp.Properties.map (fun pv => (kp.Key, pv))) [] evsP _ hnow ?_
      intro pre0 ev0 post0 hl ed0 kp0 err0 hev0
      subst hev0
      cases pre0 with
      | nil =>
        simp only [List.nil_append, List.cons.injEq, Event.Write.injEq] at hl
        obtain ⟨⟨_, hkp, _⟩, _⟩ := hl
        subst hkp
        simp [quiet_pendStep evsP hq, hasks]
      | cons y ys =>
        simp only [List.cons_append, List.cons.injEq] at hl
        exact absurd hl.2 (by simp)
    · refine failLast_append _ evsP _ hclean ?_
      intro pre0 ev0 post0 hl hf0
      cases pre0 with
      | nil =>
        simp only [List.nil_append, List.cons.injEq] at hl
        obtain ⟨hev, hpost⟩ := hl
        subst hev
        refine ⟨hpost.symm, ?_⟩
        rcases hout with ⟨hwerr, _⟩ | ⟨we, err, _, herr⟩
        · subst hwerr
          simp [Event.failed] at hf0
        · exact ⟨err, herr⟩
      | cons y ys =>
        simp only [List.cons_append, List.cons.injEq] at hl
        exact absurd hl.2 (by simp)
    · rintro ⟨x, hx, hxf, hxa⟩
      rcases List.mem_append.mp hx with h | h
      · rw [hclean x h] at hxf
        exact absurd hxf (by simp)
      · simp only [List.mem_singleton] at h
        subst h
        simp [Event.isAsk] at hxa
  · rw [hevs] at *
    have hcleanFail : ∀ pre0 ev0 post0, evsP = pre0 ++ ev0 :: post0 → ev0.failed = true →
        post0 = [] ∧ ∃ err, (runEntry o schema secEditor name e hist).1 = Outcome.err err := by
      rw [hsplit]
      refine failLast_append _ pre _ hpre ?_
      intro pre0 ev0 post0 hl _
      cases pre0 with
      | nil =>
        simp only [List.nil_append, List.cons.injEq] at hl
        exact ⟨hl.2.symm, err, hout⟩
      | cons y ys =>
        simp only [List.cons_append, List.cons.injEq] at hl
        exact absurd hl.2 (by simp)
    refine ⟨hq3, by simp [quiet_writes evsP hq], ?_, hnow, hcleanFail,
      fun _ => quiet_writes evsP hq⟩
    intro hnil
    rw [hout] at hnil
    exact absurd hnil (by simp)
  · rw [hevs] at *
    refine ⟨hq3, by simp [quiet_writes evsP hq], ?_, hnow, ?_, fun _ => quiet_writes evsP hq⟩
    · intro hnil
      rw [hout] at hnil
      exact absurd hnil (by simp)
    · exact failLast_of_clean _ evsP hclean

/-! ## Facts about the loop over the entries -/

theorem runEntries_facts {Schema : Type} (o : Options Schema) (schema : Schema)
    (secEditor : Option Editor) (name : String) :
    ∀ (entries : List EntryError) (hist : List Event),
      (∀ ev ∈ (runEntries o schema secEditor name entries hist).2,
        ev.isInner = true ∨ ev.isAsk = true ∨
          ∃ ed kp err, ev = Event.Write ed kp err ∧ secEditor = some ed) ∧
      ((writes (runEntries o schema secEditor name entries hist).2).map KeyProperties.names
        <+: entries.map (fun e => (e.Key, e.Properties))) ∧
      ((runEntries o schema secEditor name entries hist).1 = Outcome.nil →
        (writes (runEntries o schema secEditor name entries hist).2).map KeyProperties.names
          = entries.map (fun e => (e.Key, e.Properties)) ∧
        (runEntries o schema secEditor name entries hist).2.foldl pendStep [] = [] ∧
        ∀ ev ∈ (runEntries o schema secEditor name entries hist).2, ev.failed = false) ∧
      (∀ pre ev post, (runEntries o schema secEditor name entries hist).2 = pre ++ ev :: post →
        ∀ ed kp err, ev = Event.Write ed kp err →
          pre.foldl pendStep [] = kp.Properties.map (fun pv => (kp.Key, pv))) ∧
      (∀ pre ev post, (runEntries o schema secEditor name entries hist).2 = pre ++ ev :: post →
        ev.failed = true →
          post = [] ∧
            ∃ err, (runEntries o schema secEditor name entries hist).1 = Outcome.err err) := by
  intro entries
  induction entries with
  | nil =>
    intro hist
    simp [runEntries, writes]
  | cons e rest ih =>
    intro hist
    obtain ⟨f1, f2, f3, f4, f5, _⟩ := runEntry_facts o schema secEditor name e hist
    rcases hre : runEntry o schema secEditor name e hist with ⟨out1, evs1⟩
    rw [hre] at f1 f2 f3 f4 f5
    simp only at f1 f2 f3 f4 f5
    have f1' : ∀ ev ∈ evs1, ev.isInner = true ∨ ev.isAsk = true ∨
        ∃ ed kp err, ev = Event.Write ed kp err ∧ secEditor = some ed := by
      intro ev hev
      rcases f1 ev hev with h | h | ⟨ed, kp, err, h1, h2, _⟩
      · exact Or.inl h
      · exact Or.inr (Or.inl h)
      · exact Or.inr (Or.inr ⟨ed, kp, err, h1, h2⟩)
    have hpre : (writes evs1).map KeyProperties.names
        <+: (e :: rest).map (fun e => (e.Key, e.Properties)) :=
      List.IsPrefix.trans f2 ⟨rest.map (fun e => (e.Key, e.Properties)), by simp⟩
    cases out1 with
    | nil =>
      obtain ⟨g1, g2, g3⟩ := f3 rfl
      obtain ⟨i1, i2, i3, i4, i5⟩ := ih (hist ++ evs1)
      rcases hrec : runEntries o schema secEditor name rest (hist ++ evs1) with ⟨out2, evs2⟩
      rw [hrec] at i1 i2 i3 i4 i5
      simp only at i1 i2 i3 i4 i5
      simp only [runEntries, hre, hrec]
      have hw : (writes (evs1 ++ evs2)).map KeyProperties.names
          = [(e.Key, e.Properties)] ++ (writes evs2).map KeyProperties.names := by
        simp only [writes, List.filterMap_append, List.map_append] at g1 ⊢
        rw [g1]
      refine ⟨?_, ?_, ?_, ?_, ?_⟩
      · intro ev hev
        rcases List.mem_append.mp hev with h | h
        · exact f1' ev h
        · exact i1 ev h
      · rw [hw]
        simpa using i2
      · intro hnil
        obtain ⟨j1, j2, j3⟩ := i3 hnil
        refine ⟨by rw [hw, j1]; simp, by rw [List.foldl_append, g2, j2], ?_⟩
        intro ev hev
        rcases List.mem_append.mp hev with h | h
        · exact g3 ev h
        · exact j3 ev h
      · refine split_append pendStep
          (fun st ev => ∀ ed kp err, ev = Event.Write ed kp err →
            st = kp.Properties.map (fun pv => (kp.Key, pv))) [] evs1 evs2 f4 ?_
        rw [g2]
        exact i4
      · exact failLast_append _ evs1 evs2 g3 i5
    | err err1 =>
      simp only [runEntries, hre]
      refine ⟨f1', hpre, ?_, f4, f5⟩
      intro h
      exact absurd h (by simp)
    | panic =>
      simp only [runEntries, hre]
      refine ⟨f1', hpre, ?_, f4, f5⟩
      intro h
      exact absurd h (by simp)

theorem runEntries_pairs {Schema : Type} (o : Options Schema) (schema : Schema)
    (secEditor : Option Editor) (name : String) :
    ∀ (entries : List EntryError) (hist : List Event) ed kp err,
      Event.Write ed kp err ∈ (runEntries o schema secEditor name entries hist).2 →
        ∃ e ∈ entries, kp.Key = e.Key ∧
          List.Forall₂ (pairOf o schema name) e.Properties kp.Properties := by
  intro entries
  induction entries with
  | nil =>
    intro hist ed kp err hmem
    simp [runEntries] at hmem
  | cons e rest ih =>
    intro hist ed kp err hmem
    obtain ⟨f1, _⟩ := runEntry_facts o schema secEditor name e hist
    rcases hre : runEntry o schema secEditor name e hist with ⟨out1, evs1⟩
    rw [hre] at f1
    simp only at f1
    have hhead : Event.Write ed kp err ∈ evs1 →
        ∃ e1 ∈ e :: rest, kp.Key = e1.Key ∧
          List.Forall₂ (pairOf o schema name) e1.Properties kp.Properties := by
      intro h
      rcases f1 _ h with h1 | h1 | ⟨ed1, kp1, err1, heq, _, hkey, hfor⟩
      · simp [Event.isInner] at h1
      · simp [Event.isAsk] at h1
      · simp only [Event.Write.injEq] at heq
        obtain ⟨_, hkp, _⟩ := heq
        subst hkp
        exact ⟨e, List.mem_cons_self _ _, hkey, hfor⟩
    cases out1 with
    | nil =>
      rcases hrec : runEntries o schema secEditor name rest (hist ++ evs1) with ⟨out2, evs2⟩
      simp only [runEntries, hre, hrec] at hmem
      rcases List.mem_append.mp hmem with h | h
      · exact hhead h
      · have := ih (hist ++ evs1) ed kp err (by rw [hrec]; exact h)
        obtain ⟨e1, he1, hk⟩ := this
        exact ⟨e1, List.mem_cons_of_mem _ he1, hk⟩
    | err err1 =>
      simp only [runEntries, hre] at hmem
      exact hhead hmem
    | panic =>
      simp only [runEntries, hre] at hmem
      exact hhead hmem

theorem runEntries_clean_nil {Schema : Type} (o : Options Schema) (schema : Schema)
    (ed : Editor) (name : String) :
    ∀ (entries : List EntryError) (hist : List Event),
      (∀ ev ∈ (runEntries o schema (some ed) name entries hist).2, ev.failed = false) →
        (runEntries o schema (some ed) name entries hist).1 = Outcome.nil := by
  intro entries
  induction entries with
  | nil =>
    intro hist _
    simp [runEntries]
  | cons e rest ih =>
    intro hist hclean
    obtain ⟨evsP, _, hcase⟩ := runEntry_spec o schema (some ed) name e hist
    rcases hre : runEntry o schema (some ed) name e hist with ⟨out1, evs1⟩
    rw [hre] at hcase
    simp only at hcase
    have hout1 : (∀ ev ∈ evs1, ev.failed = false) → out1 = Outcome.nil := by
      intro hc
      rcases hcase with ⟨ed1, kp, werr, _, hevs, _, _, _, _, _, hout⟩ |
        ⟨err, pre, ev, _, hevs, hsplit, hf, _, _⟩ | ⟨_, hsec, _, _⟩
      · rcases hout with ⟨_, h⟩ | ⟨we, err, hwe, _⟩
        · exact h
        · have := hc (Event.Write ed1 kp werr) (by rw [hevs]; simp)
          rw [hwe] at this
          simp [Event.failed] at this
      · have := hc ev (by rw [hevs, hsplit]; simp)
        rw [this] at hf
        exact absurd hf (by simp)
      · simp at hsec
    cases out1 with
    | nil =>
      rcases hrec : runEntries o schema (some ed) name rest (hist ++ evs1) with ⟨out2, evs2⟩
      simp only [runEntries, hre, hrec] at hclean ⊢
      have := ih (hist ++ evs1) (by
        rw [hrec]
        exact fun ev hev => hclean ev (List.mem_append_right _ hev))
      rw [hrec] at this
      exact this
    | err err1 =>
      simp only [runEntries, hre] at hclean
      exact absurd (hout1 hclean) (by simp)
    | panic =>
      simp only [runEntries, hre] at hclean
      exact absurd (hout1 hclean) (by simp)

theorem quiet_writeCalls (l : List Event)
    (h : ∀ ev ∈ l, ev.isInner = true ∨ ev.isAsk = true) : writeCalls l = [] := by
  induction l with
  | nil => rfl
  | cons ev rest ih =>
    have h1 := h ev (List.mem_cons_self _ _)
    have h2 := ih (fun x hx => h x (List.mem_cons_of_mem _ hx))
    clear h ih
    unfold writeCalls at h2 ⊢
    cases ev <;> simp [Event.isInner, Event.isAsk] at h1 <;> simp [h2]

theorem setup_writeCalls (l : List Event) (h : ∀ ev ∈ l, ev.isSetup = true) :
    writeCalls l = [] := by
  induction l with
  | nil => rfl
  | cons ev rest ih =>
    have h1 := h ev (List.mem_cons_self _ _)
    have h2 := ih (fun x hx => h x (List.mem_cons_of_mem _ hx))
    clear h ih
    unfold writeCalls at h2 ⊢
    cases ev <;> simp [Event.isSetup] at h1 <;> simp [h2]

theorem writeCalls_append (l1 l2 : List Event) :
    writeCalls (l1 ++ l2) = writeCalls l1 ++ writeCalls l2 := by
  simp [writeCalls, List.filterMap_append]

theorem runEntry_writeCalls {Schema : Type} (o : Options Schema) (schema : Schema)
    (secEditor : Option Editor) (name : String) (e : EntryError) (hist : List Event) :
    (∃ ed kp, writeCalls (runEntry o schema secEditor name e hist).2 = [(ed, kp)] ∧
      secEditor = some ed ∧ kp.Key = e.Key ∧
      List.Forall₂ (pairOf o schema name) e.Properties kp.Properties) ∨
    (writeCalls (runEntry o schema secEditor name e hist).2 = [] ∧
      (runEntry o schema secEditor name e hist).1 ≠ Outcome.nil) := by
  obtain ⟨evsP, hq, hcase⟩ := runEntry_spec o schema secEditor name e hist
  rcases hcase with ⟨ed, kp, werr, hsec, hevs, _, _, hkey, hfor, _, _⟩ |
    ⟨err, pre, ev, hout, hevs, _, _, _, _⟩ | ⟨hout, _, hevs, _⟩
  · refine Or.inl ⟨ed, kp, ?_, hsec, hkey, hfor⟩
    rw [hevs, writeCalls_append, quiet_writeCalls evsP hq]
    rfl
  · refine Or.inr ⟨by rw [hevs]; exact quiet_writeCalls evsP hq, ?_⟩
    rw [hout]
    simp
  · refine Or.inr ⟨by rw [hevs]; exact quiet_writeCalls evsP hq, ?_⟩
    rw [hout]
    simp

theorem runProperties_confirm {Schema : Type} (o : Options Schema) (schema : Schema)
    (e : EntryError) (name : String) :
    ∀ (props : List String) (kp : KeyProperties) (hist : List Event),
      (∀ p ∈ props, isConfirm o schema name p = true) →
        (runProperties o schema e name props kp hist).1
          = Except.ok { kp with
              Properties := kp.Properties ++ props.map (fun p => PropertyValue.mk p "") } := by
  intro props
  induction props with
  | nil =>
    intro kp hist _
    simp [runProperties]
  | cons property rest ih =>
    intro kp hist hall
    have hask := askForSecretValue_isConfirm o schema hist e property name
      (hall property (List.mem_cons_self _ _))
    have hrest := ih
      { kp with Properties := kp.Properties ++ [{ Property := property, Value := "" }] }
      (hist ++ ([Event.Warn "implement confirm"] ++
        [Event.askForSecretValue e.Key property name "" none]))
      (fun p hp => hall p (List.mem_cons_of_mem _ hp))
    rcases hrec : runProperties o schema e name rest
      { kp with Properties := kp.Properties ++ [{ Property := property, Value := "" }] }
      (hist ++ ([Event.Warn "implement confirm"] ++
        [Event.askForSecretValue e.Key property name "" none])) with ⟨res, evs2⟩
    rw [hrec] at hrest
    simp only at hrest
    simp only [runProperties, hask, hrec, hrest]
    simp

theorem runEntry_confirm {Schema : Type} (o : Options Schema) (schema : Schema)
    (ed : Editor) (name : String) (e : EntryError) (hist : List Event)
    (hall : ∀ p ∈ e.Properties, isConfirm o schema name p = true) :
    writeCalls (runEntry o schema (some ed) name e hist).2
      = [(ed, { Key := e.Key,
                Properties := e.Properties.map (fun p => PropertyValue.mk p "") })] := by
  have hok := runProperties_confirm o schema e name e.Properties
    { Key := e.Key, Properties := [] } hist hall
  obtain ⟨hq, _, _⟩ :=
    runProperties_spec o schema e name e.Properties { Key := e.Key, Properties := [] } hist
  rcases hrp : runProperties o schema e name e.Properties { Key := e.Key, Properties := [] } hist
    with ⟨res, evsP⟩
  rw [hrp] at hok hq
  simp only [List.nil_append] at hok hq
  subst hok
  have hqw := quiet_writeCalls evsP hq
  cases hw : o.Write (hist ++ evsP) ed
      { Key := e.Key, Properties := e.Properties.map (fun p => PropertyValue.mk p "") } <;>
    simp [runEntry, hrp, hw, writeCalls_append, hqw] <;> rfl

theorem runEntry_resolved {Schema : Type} (o : Options Schema) (schema : Schema)
    (ed : Editor) (name : String) (e : EntryError) (hist : List Event)
    (hclean : ∀ ev ∈ (runEntry o schema (some ed) name e hist).2,
      ev.isAsk = true → ev.failed = false) :
    ∃ pre kp,
      (runEntry o schema (some ed) name e hist).2
        = pre ++ [Event.Write ed kp (o.Write (hist ++ pre) ed kp)] ∧
      (∀ ev ∈ pre, ev.isInner = true ∨ ev.isAsk = true) ∧
      kp.Key = e.Key ∧ List.Forall₂ (pairOf o schema name) e.Properties kp.Properties := by
  obtain ⟨evsP, hq, hcase⟩ := runEntry_spec o schema (some ed) name e hist
  rcases hcase with ⟨ed1, kp, werr, hsec, hevs, _, _, hkey, hfor, hwerr, _⟩ |
    ⟨err, pre, ev, _, hevs, hsplit, hf, ha, _⟩ | ⟨_, hsec, _, _⟩
  · simp only [Option.some.injEq] at hsec
    subst hsec
    subst hwerr
    exact ⟨evsP, kp, hevs, hq, hkey, hfor⟩
  · have := hclean ev (by rw [hevs, hsplit]; simp) ha
    rw [this] at hf
    exact absurd hf (by simp)
  · simp at hsec

theorem runEntries_owned {Schema : Type} (o : Options Schema) (schema : Schema)
    (secEditor : Option Editor) (name : String) :
    ∀ (entries : List EntryError) (hist : List Event),
      ∃ done, done <+: entries ∧
        ((runEntries o schema secEditor name entries hist).1 = Outcome.nil → done = entries) ∧
        List.Forall₂
          (fun (e : EntryError) (w : Editor × KeyProperties) =>
            secEditor = some w.1 ∧ w.2.Key = e.Key ∧
              List.Forall₂ (pairOf o schema name) e.Properties w.2.Properties)
          done (writeCalls (runEntries o schema secEditor name entries hist).2) := by
  intro entries
  induction entries with
  | nil =>
    intro hist
    exact ⟨[], List.prefix_rfl, fun _ => rfl, by simp [runEntries, writeCalls]⟩
  | cons e rest ih =>
    intro hist
    have hw := runEntry_writeCalls o schema secEditor name e hist
    rcases hre : runEntry o schema secEditor name e hist with ⟨out1, evs1⟩
    rw [hre] at hw
    simp only at hw
    cases out1 with
    | nil =>
      rcases hw with ⟨ed, kp, hwc, hsec, hkey, hfor⟩ | ⟨_, hne⟩
      · obtain ⟨done, hpre, hnil, hall⟩ := ih (hist ++ evs1)
        rcases hrec : runEntries o schema secEditor name rest (hist ++ evs1) with ⟨out2, evs2⟩
        rw [hrec] at hnil hall
        simp only at hnil hall
        simp only [runEntries, hre, hrec]
        refine ⟨e :: done, ?_, ?_, ?_⟩
        · obtain ⟨t, ht⟩ := hpre
          exact ⟨t, by simp [ht]⟩
        · intro h
          rw [hnil h]
        · rw [writeCalls_append, hwc]
          exact List.Forall₂.cons ⟨hsec, hkey, hfor⟩ hall
      · exact absurd rfl hne
    | err err1 =>
      simp only [runEntries, hre]
      rcases hw with ⟨ed, kp, hwc, hsec, hkey, hfor⟩ | ⟨hwc, _⟩
      · refine ⟨[e], ⟨rest, rfl⟩, fun h => absurd h (by simp), ?_⟩
        rw [hwc]
        exact List.Forall₂.cons ⟨hsec, hkey, hfor⟩ List.Forall₂.nil
      · refine ⟨[], List.nil_prefix, fun h => absurd h (by simp), ?_⟩
        rw [hwc]
        exact List.Forall₂.nil
    | panic =>
      simp only [runEntries, hre]
      rcases hw with ⟨ed, kp, hwc, hsec, hkey, hfor⟩ | ⟨hwc, _⟩
      · refine ⟨[e], ⟨rest, rfl⟩, fun h => absurd h (by simp), ?_⟩
        rw [hwc]
        exact List.Forall₂.cons ⟨hsec, hkey, hfor⟩ List.Forall₂.nil
      · refine ⟨[], List.nil_prefix, fun h => absurd h (by simp), ?_⟩
        rw [hwc]
        exact List.Forall₂.nil

/-! ## Facts about the loop over the results -/

theorem getEditor_spec {Schema : Type} (o : Options Schema) (r : SecretError)
    (editors : String → Option Editor) (hist : List Event) :
    (∃ ed, editors r.backendType = some ed ∧
      getEditor o r editors hist
        = (Except.ok (some ed, editors), [Event.Infof usingFormat [r.backendType]])) ∨
    (editors r.backendType = none ∧
      ((∃ ed err werr,
          o.NewEditor (hist ++ [Event.Infof usingFormat [r.backendType]]) r.ExternalSecret
            = (ed, some err) ∧
          getEditor o r editors hist
            = (Except.error werr, [Event.Infof usingFormat [r.backendType],
                Event.NewEditor r.ExternalSecret ed (some err)])) ∨
       (∃ ed,
          o.NewEditor (hist ++ [Event.Infof usingFormat [r.backendType]]) r.ExternalSecret
            = (ed, none) ∧
          getEditor o r editors hist
            = (Except.ok (ed, fun k => if k = r.backendType then ed else editors k),
                [Event.Infof usingFormat [r.backendType],
                  Event.NewEditor r.ExternalSecret ed none])))) := by
  unfold SecretError.backendType
  cases hed : editors r.ExternalSecret.Spec.BackendType with
  | some ed =>
    exact Or.inl ⟨ed, rfl, by simp [getEditor, hed]⟩
  | none =>
    refine Or.inr ⟨rfl, ?_⟩
    rcases hne : o.NewEditor (hist ++ [Event.Infof usingFormat [r.ExternalSecret.Spec.BackendType]])
      r.ExternalSecret with ⟨ed, _ | err⟩
    · exact Or.inr ⟨ed, rfl, by simp [getEditor, hed, hne]⟩
    · exact Or.inl ⟨ed, err, _, rfl, by simp [getEditor, hed, hne]; rfl⟩

theorem getEditor_facts {Schema : Type} (o : Options Schema) (r : SecretError)
    (editors : String → Option Editor) (hist : List Event) :
    (∀ ev ∈ (getEditor o r editors hist).2, ev.isSetup = true) ∧
    usings (getEditor o r editors hist).2 = [r.backendType] ∧
    (∀ res, (getEditor o r editors hist).1 = Except.ok res →
      ∀ ev ∈ (getEditor o r editors hist).2, ev.failed = false) ∧
    (∀ pre ev post, (getEditor o r editors hist).2 = pre ++ ev :: post → ev.failed = true →
      post = [] ∧ ∃ err, (getEditor o r editors hist).1 = Except.error err) := by
  rcases getEditor_spec o r editors hist with ⟨ed, _, h⟩ | ⟨_, ⟨ed, err, werr, _, h⟩ | ⟨ed, _, h⟩⟩
  · rw [h]
    refine ⟨by simp [Event.isSetup], by simp [usings], fun _ _ => by simp [Event.failed], ?_⟩
    exact failLast_of_clean _ _ (by simp [Event.failed])
  · rw [h]
    refine ⟨by simp [Event.isSetup], by simp [usings], fun _ h => by simp at h, ?_⟩
    refine failLast_append _ [Event.Infof usingFormat [r.backendType]] _
      (by simp [Event.failed]) ?_
    intro pre ev post hl _
    cases pre with
    | nil =>
      simp only [List.nil_append, List.cons.injEq] at hl
      exact ⟨hl.2.symm, werr, rfl⟩
    | cons y ys =>
      simp only [List.cons_append, List.cons.injEq] at hl
      exact absurd hl.2 (by simp)
  · rw [h]
    refine ⟨by simp [Event.isSetup], by simp [usings], fun _ _ => by simp [Event.failed], ?_⟩
    exact failLast_of_clean _ _ (by simp [Event.failed])

theorem runResults_facts {Schema : Type} (o : Options Schema) (schema : Schema) :
    ∀ (results : List SecretError) (editors : String → Option Editor) (hist : List Event),
      ((writes (runResults o schema results editors hist).2).map KeyProperties.names
        <+: missingEntries results) ∧
      ((runResults o schema results editors hist).1 = Outcome.nil →
        (writes (runResults o schema results editors hist).2).map KeyProperties.names
          = missingEntries results ∧
        (runResults o schema results editors hist).2.foldl pendStep [] = [] ∧
        (∀ ev ∈ (runResults o schema results editors hist).2, ev.failed = false) ∧
        usings (runResults o schema results editors hist).2
          = results.map SecretError.backendType) ∧
      (∀ pre ev post, (runResults o schema results editors hist).2 = pre ++ ev :: post →
        ∀ ed kp err, ev = Event.Write ed kp err →
          pre.foldl pendStep [] = kp.Properties.map (fun pv => (kp.Key, pv))) ∧
      (∀ pre ev post, (runResults o schema results editors hist).2 = pre ++ ev :: post →
        ev.failed = true →
          post = [] ∧
            ∃ err, (runResults o schema results editors hist).1 = Outcome.err err) ∧
      (usings (runResults o schema results editors hist).2
        <+: results.map SecretError.backendType) := by
  intro results
  induction results with
  | nil =>
    intro editors hist
    simp [runResults, writes, missingEntries, usings]
  | cons r rest ih =>
    intro editors hist
    obtain ⟨g1, g2, g3, g4⟩ := getEditor_facts o r editors hist
    rcases hge : getEditor o r editors hist with ⟨res1, evs1⟩
    rw [hge] at g1 g2 g3 g4
    simp only at g1 g2 g3 g4
    have hnow1 : ∀ pre ev post, evs1 = pre ++ ev :: post → ∀ ed kp err, ev = Event.Write ed kp err →
        pre.foldl pendStep [] = kp.Properties.map (fun pv => (kp.Key, pv)) := by
      intro pre ev post hl ed kp err hev
      subst hev
      exact absurd hl (setup_no_write evs1 g1 pre post ed kp err)
    have hme : missingEntries (r :: rest)
        = r.EntryErrors.map (fun e => (e.Key, e.Properties)) ++ missingEntries rest := by
      simp [missingEntries]
    cases res1 with
    | error err1 =>
      simp only [runResults, hge]
      refine ⟨by simp [setup_writes evs1 g1], fun h => absurd h (by simp), hnow1, ?_, ?_⟩
      · intro pre ev post hl hf
        obtain ⟨hp, _⟩ := g4 pre ev post hl hf
        exact ⟨hp, err1, rfl⟩
      · rw [g2]
        exact ⟨rest.map SecretError.backendType, by simp⟩
    | ok pr =>
      obtain ⟨secEditor, editors1⟩ := pr
      have hclean1 := g3 _ rfl
      obtain ⟨e1, e2, e3, e4, e5⟩ :=
        runEntries_facts o schema secEditor r.ExternalSecret.Name r.EntryErrors (hist ++ evs1)
      rcases hres : runEntries o schema secEditor r.ExternalSecret.Name r.EntryErrors
        (hist ++ evs1) with ⟨out2, evs2⟩
      rw [hres] at e1 e2 e3 e4 e5
      simp only at e1 e2 e3 e4 e5
      have hns2 : ∀ ev ∈ evs2, ev.isSetup = false :=
        fun ev hev => setup_of_entry_event secEditor ev (e1 ev hev)
      have hw12 : writes (evs1 ++ evs2) = writes evs2 := by
        have := setup_writes evs1 g1
        simp only [writes, List.filterMap_append] at this ⊢
        rw [this]
        rfl
      have hu12 : usings (evs1 ++ evs2) = [r.backendType] := by
        have := entry_usings evs2 hns2
        simp only [usings, List.filterMap_append] at this g2 ⊢
        rw [this, g2]
        rfl
      have hsplit12 : ∀ pre ev post, evs1 ++ evs2 = pre ++ ev :: post →
          ∀ ed kp err, ev = Event.Write ed kp err →
            pre.foldl pendStep [] = kp.Properties.map (fun pv => (kp.Key, pv)) := by
        refine split_append pendStep
          (fun st ev => ∀ ed kp err, ev = Event.Write ed kp err →
            st = kp.Properties.map (fun pv => (kp.Key, pv))) [] evs1 evs2 hnow1 ?_
        rw [setup_pendStep evs1 g1]
        exact e4
      have hpre2 : (writes (evs1 ++ evs2)).map KeyProperties.names
          <+: missingEntries (r :: rest) := by
        rw [hw12, hme]
        exact List.IsPrefix.trans e2 (List.prefix_append _ _)
      have hupre : usings (evs1 ++ evs2) <+: (r :: rest).map SecretError.backendType := by
        rw [hu12]
        exact ⟨rest.map SecretError.backendType, by simp⟩
      have hfail2 : ∀ pre ev post, evs1 ++ evs2 = pre ++ ev :: post → ev.failed = true →
          post = [] ∧ ∃ err, out2 = Outcome.err err :=
        failLast_append _ evs1 evs2 hclean1 e5
      cases out2 with
      | nil =>
        obtain ⟨k1, k2, k3⟩ := e3 rfl
        obtain ⟨i1, i2, i3, i4, i5⟩ := ih editors1 (hist ++ (evs1 ++ evs2))
        rcases hrec : runResults o schema rest editors1 (hist ++ (evs1 ++ evs2))
          with ⟨out3, evs3⟩
        rw [hrec] at i1 i2 i3 i4 i5
        simp only at i1 i2 i3 i4 i5
        simp only [runResults, hge, hres, hrec]
        have hclean12 : ∀ ev ∈ evs1 ++ evs2, ev.failed = false := by
          intro ev hev
          rcases List.mem_append.mp hev with h | h
          · exact hclean1 ev h
          · exact k3 ev h
        have hw : (writes (evs1 ++ evs2 ++ evs3)).map KeyProperties.names
            = r.EntryErrors.map (fun e => (e.Key, e.Properties))
              ++ (writes evs3).map KeyProperties.names := by
          rw [← k1, ← hw12]
          simp only [writes, List.filterMap_append, List.map_append]
        have hu : usings (evs1 ++ evs2 ++ evs3) = [r.backendType] ++ usings evs3 := by
          rw [← hu12]
          simp only [usings, List.filterMap_append]
        have hfold12 : (evs1 ++ evs2).foldl pendStep [] = [] := by
          rw [List.foldl_append, setup_pendStep evs1 g1, k2]
        refine ⟨?_, ?_, ?_, ?_, ?_⟩
        · rw [hw, hme]
          simpa using i1
        · intro hnil
          obtain ⟨j1, j2, j3, j4⟩ := i2 hnil
          refine ⟨by rw [hw, hme, j1], by rw [List.foldl_append, hfold12, j2], ?_,
            by rw [hu, j4]; simp⟩
          intro ev hev
          rcases List.mem_append.mp hev with h | h
          · exact hclean12 ev h
          · exact j3 ev h
        · refine split_append pendStep
            (fun st ev => ∀ ed kp err, ev = Event.Write ed kp err →
              st = kp.Properties.map (fun pv => (kp.Key, pv))) [] (evs1 ++ evs2) evs3
            hsplit12 ?_
          rw [hfold12]
          exact i3
        · exact failLast_append _ (evs1 ++ evs2) evs3 hclean12 i4
        · rw [hu]
          simpa using i5
      | err err2 =>
        simp only [runResults, hge, hres]
        exact ⟨hpre2, fun h => absurd h (by simp), hsplit12, hfail2, hupre⟩
      | panic =>
        simp only [runResults, hge, hres]
        exact ⟨hpre2, fun h => absurd h (by simp), hsplit12, hfail2, hupre⟩

theorem runResults_pairs {Schema : Type} (o : Options Schema) (schema : Schema) :
    ∀ (results : List SecretError) (editors : String → Option Editor) (hist : List Event)
      ed kp err,
      Event.Write ed kp err ∈ (runResults o schema results editors hist).2 →
        ∃ r ∈ results, ∃ e ∈ r.EntryErrors, kp.Key = e.Key ∧
          List.Forall₂ (pairOf o schema r.ExternalSecret.Name) e.Properties kp.Properties := by
  intro results
  induction results with
  | nil =>
    intro editors hist ed kp err hmem
    simp [runResults] at hmem
  | cons r rest ih =>
    intro editors hist ed kp err hmem
    obtain ⟨g1, _⟩ := getEditor_facts o r editors hist
    rcases hge : getEditor o r editors hist with ⟨res1, evs1⟩
    rw [hge] at g1
    simp only at g1
    have hno1 : Event.Write ed kp err ∉ evs1 := by
      intro h
      have := g1 _ h
      simp [Event.isSetup] at this
    cases res1 with
    | error err1 =>
      simp only [runResults, hge] at hmem
      exact absurd hmem hno1
    | ok pr =>
      obtain ⟨secEditor, editors1⟩ := pr
      have hp := runEntries_pairs o schema secEditor r.ExternalSecret.Name r.EntryErrors
        (hist ++ evs1) ed kp err
      rcases hres : runEntries o schema secEditor r.ExternalSecret.Name r.EntryErrors
        (hist ++ evs1) with ⟨out2, evs2⟩
      rw [hres] at hp
      simp only at hp
      have hhead : Event.Write ed kp err ∈ evs1 ++ evs2 →
          ∃ r1 ∈ r :: rest, ∃ e ∈ r1.EntryErrors, kp.Key = e.Key ∧
            List.Forall₂ (pairOf o schema r1.ExternalSecret.Name) e.Properties
              kp.Properties := by
        intro h
        rcases List.mem_append.mp h with h1 | h1
        · exact absurd h1 hno1
        · exact ⟨r, List.mem_cons_self _ _, hp h1⟩
      cases out2 with
      | nil =>
        rcases hrec : runResults o schema rest editors1 (hist ++ (evs1 ++ evs2))
          with ⟨out3, evs3⟩
        simp only [runResults, hge, hres, hrec] at hmem
        rcases List.mem_append.mp hmem with h | h
        · exact hhead h
        · obtain ⟨r1, hr1, hk⟩ := ih editors1 (hist ++ (evs1 ++ evs2)) ed kp err
            (by rw [hrec]; exact h)
          exact ⟨r1, List.mem_cons_of_mem _ hr1, hk⟩
      | err err2 =>
        simp only [runResults, hge, hres] at hmem
        exact hhead hmem
      | panic =>
        simp only [runResults, hge, hres] at hmem
        exact hhead hmem

/-! ## Facts about the editors -/

theorem editorOf_append (l1 l2 : List Event) (b : String) :
    editorOf (l1 ++ l2) b
      = match editorOf l1 b with
        | some ed => some ed
        | none => editorOf l2 b := by
  induction l1 with
  | nil => simp [editorOf]
  | cons ev l1 ih =>
    cases ev with
    | NewEditor secret editor err =>
      cases editor with
      | none => simp [editorOf, ih]
      | some ed =>
        cases err with
        | some e => simp [editorOf, ih]
        | none =>
          by_cases hb : secret.Spec.BackendType = b
          · simp [editorOf, hb]
          · simp [editorOf, hb, ih]
    | _ => simp [editorOf, ih]

theorem editorOf_append_some (l1 l2 : List Event) (b : String) (ed : Editor)
    (h : editorOf l1 b = some ed) : editorOf (l1 ++ l2) b = some ed := by
  rw [editorOf_append, h]

theorem editorOf_append_none (l1 l2 : List Event) (b : String)
    (h : editorOf l2 b = none) : editorOf (l1 ++ l2) b = editorOf l1 b := by
  rw [editorOf_append, h]
  cases editorOf l1 b <;> rfl

theorem editorOf_entry (l : List Event) (b : String)
    (h : ∀ ev ∈ l, ev.isSetup = false) : editorOf l b = none := by
  have := entry_editorOf l [] b h
  simpa [editorOf] using this

theorem getEditor_ok {Schema : Type} (o : Options Schema)
    (hNonNil : ∀ hist secret ed, o.NewEditor hist secret = (ed, none) → ed ≠ none)
    (r : SecretError) (editors : String → Option Editor) (hist : List Event)
    (hinv : ∀ b, editorOf hist b = editors b)
    (secEditor : Option Editor) (editors1 : String → Option Editor) (evs1 : List Event)
    (h : getEditor o r editors hist = (Except.ok (secEditor, editors1), evs1)) :
    (∃ ed, secEditor = some ed ∧ editorOf (hist ++ evs1) r.backendType = some ed) ∧
    (∀ b, editorOf (hist ++ evs1) b = editors1 b) ∧
    (∀ cur0, evs1.foldl curStep cur0 = some r.backendType) ∧
    (∀ b, (newEditorCalls b evs1).length
      = if editors b = none ∧ b = r.backendType then 1 else 0) ∧
    (∀ b, editors1 b = if b = r.backendType then secEditor else editors b) ∧
    (∀ es ed err, Event.NewEditor es ed err ∈ evs1 →
      es = r.ExternalSecret ∧ editors r.backendType = none) := by
  rcases getEditor_spec o r editors hist with ⟨ed, hed, hg⟩ |
    ⟨hed, ⟨ed, err, werr, _, hg⟩ | ⟨ed, hne, hg⟩⟩
  · rw [hg] at h
    simp only [Prod.mk.injEq, Except.ok.injEq] at h
    obtain ⟨⟨hs, he⟩, hev⟩ := h
    subst hs he hev
    have hsame : ∀ b, editorOf (hist ++ [Event.Infof usingFormat [r.backendType]]) b
        = editors b := by
      intro b
      rw [editorOf_append_none _ _ _ (by simp [editorOf])]
      exact hinv b
    refine ⟨⟨ed, rfl, by rw [hsame, hed]⟩, hsame, by simp [curStep], ?_, ?_, by simp⟩
    · intro b
      have : ¬ (editors b = none ∧ b = r.backendType) := by
        rintro ⟨h1, h2⟩
        rw [h2, hed] at h1
        exact absurd h1 (by simp)
      simp [newEditorCalls, this]
    · intro b
      by_cases hb : b = r.backendType
      · simp [hb, hed]
      · simp [hb]
  · rw [hg] at h
    simp at h
  · rw [hg] at h
    simp only [Prod.mk.injEq, Except.ok.injEq] at h
    obtain ⟨⟨hs, he⟩, hev⟩ := h
    subst hs he hev
    obtain ⟨x, hx⟩ : ∃ x, ed = some x := by
      have := hNonNil _ _ _ hne
      cases ed with
      | none => exact absurd rfl this
      | some x => exact ⟨x, rfl⟩
    subst hx
    have hed2 : editors r.ExternalSecret.Spec.BackendType = none := hed
    have hnew : ∀ b, editorOf (hist ++ [Event.Infof usingFormat [r.backendType],
        Event.NewEditor r.ExternalSecret (some x) none]) b
        = if b = r.backendType then some x else editors b := by
      intro b
      rw [editorOf_append, hinv b]
      by_cases hb : b = r.backendType
      · subst hb
        simp [hed2, editorOf, SecretError.backendType]
      · have hb2 : ¬ (r.ExternalSecret.Spec.BackendType = b) := fun h => hb (by
          rw [← h]; rfl)
        cases editors b <;> simp [editorOf, hb, hb2]
    refine ⟨⟨x, rfl, by rw [hnew]; simp⟩, hnew, by simp [curStep], ?_, fun _ => rfl, ?_⟩
    · intro b
      by_cases hb : b = r.backendType
      · subst hb
        simp [newEditorCalls, hed2, SecretError.backendType]
      · have hb2 : ¬ (r.ExternalSecret.Spec.BackendType = b) := fun h => hb (by
          rw [← h]; rfl)
        simp [newEditorCalls, hb, hb2]
    · intro es ed err hmem
      simp only [List.mem_cons, Event.NewEditor.injEq, List.mem_singleton, reduceCtorEq,
        false_or, List.not_mem_nil, or_false] at hmem
      exact ⟨hmem.1, hed⟩

theorem getEditor_error {Schema : Type} (o : Options Schema)
    (r : SecretError) (editors : String → Option Editor) (hist : List Event)
    (werr : GoError) (evs1 : List Event)
    (h : getEditor o r editors hist = (Except.error werr, evs1)) :
    editors r.backendType = none ∧
    (∀ b, (newEditorCalls b evs1).length = if b = r.backendType then 1 else 0) ∧
    (∀ es ed err, Event.NewEditor es ed err ∈ evs1 → es = r.ExternalSecret) := by
  rcases getEditor_spec o r editors hist with ⟨ed, hed, hg⟩ |
    ⟨hed, ⟨ed, err, werr1, _, hg⟩ | ⟨ed, hne, hg⟩⟩
  · rw [hg] at h
    simp at h
  · rw [hg] at h
    simp only [Prod.mk.injEq, Except.error.injEq] at h
    obtain ⟨_, hev⟩ := h
    subst hev
    refine ⟨hed, ?_, ?_⟩
    · intro b
      by_cases hb : b = r.backendType
      · subst hb
        simp [newEditorCalls, SecretError.backendType]
      · have hb2 : ¬ (r.ExternalSecret.Spec.BackendType = b) := fun h => hb (by
          rw [← h]; rfl)
        simp [newEditorCalls, hb, hb2]
    · intro es ed err hmem
      simp only [List.mem_cons, Event.NewEditor.injEq, List.mem_singleton, reduceCtorEq,
        false_or, List.not_mem_nil, or_false] at hmem
      exact hmem.1
  · rw [hg] at h
    simp at h

theorem runResults_editors {Schema : Type} (o : Options Schema) (schema : Schema)
    (hNonNil : ∀ hist secret ed, o.NewEditor hist secret = (ed, none) → ed ≠ none) :
    ∀ (results : List SecretError) (editors : String → Option Editor) (hist : List Event),
      (∀ b, editorOf hist b = editors b) →
      (∀ b, (newEditorCalls b (runResults o schema results editors hist).2).length
        ≤ if editors b = none then 1 else 0) ∧
      ((runResults o schema results editors hist).1 = Outcome.nil →
        ∀ r ∈ results, editors r.backendType = none →
          (newEditorCalls r.backendType (runResults o schema results editors hist).2).length
            = 1) ∧
      (∀ cur0 pre ev post, (runResults o schema results editors hist).2 = pre ++ ev :: post →
        ∀ ed kp err, ev = Event.Write ed kp err →
          ∃ b, pre.foldl curStep cur0 = some b ∧
            editorOf (hist ++ (runResults o schema results editors hist).2) b = some ed) ∧
      (∀ es ed err, Event.NewEditor es ed err ∈ (runResults o schema results editors hist).2 →
        editors es.Spec.BackendType = none ∧
        ∃ pre r post, results = pre ++ r :: post ∧ r.ExternalSecret = es ∧
          ∀ r1 ∈ pre, r1.backendType ≠ es.Spec.BackendType) := by
  intro results
  induction results with
  | nil =>
    intro editors hist _
    refine ⟨?_, ?_, ?_, ?_⟩
    · intro b
      simp [runResults, newEditorCalls]
    · intro _ r hr
      simp at hr
    · intro cur0 pre ev post hl
      simp [runResults] at hl
    · intro es ed err hmem
      simp [runResults] at hmem
  | cons r rest ih =>
    intro editors hist hinv
    obtain ⟨g1, _, _, _⟩ := getEditor_facts o r editors hist
    rcases hge : getEditor o r editors hist with ⟨res1, evs1⟩
    rw [hge] at g1
    simp only at g1
    cases res1 with
    | error werr =>
      obtain ⟨hed, hcalls, hnew⟩ := getEditor_error o r editors hist werr evs1 hge
      simp only [runResults, hge]
      refine ⟨?_, fun h => absurd h (by simp), ?_, ?_⟩
      · intro b
        rw [hcalls b]
        by_cases hb : b = r.backendType
        · subst hb
          simp [hed]
        · simp [hb]
      · intro cur0 pre ev post hl ed kp err hev
        subst hev
        exact absurd hl (setup_no_write evs1 g1 pre post ed kp err)
      · intro es ed err hmem
        have hes := hnew es ed err hmem
        subst hes
        exact ⟨hed, [], r, rest, rfl, rfl, by simp⟩
    | ok pr =>
      obtain ⟨secEditor, editors1⟩ := pr
      obtain ⟨⟨ed0, hsec, hed0⟩, c2, c3, c4, c5, c6⟩ :=
        getEditor_ok o hNonNil r editors hist hinv secEditor editors1 evs1 hge
      obtain ⟨e1, _, _, _, _⟩ :=
        runEntries_facts o schema secEditor r.ExternalSecret.Name r.EntryErrors (hist ++ evs1)
      rcases hres : runEntries o schema secEditor r.ExternalSecret.Name r.EntryErrors
        (hist ++ evs1) with ⟨out2, evs2⟩
      rw [hres] at e1
      simp only at e1
      have hns2 : ∀ ev ∈ evs2, ev.isSetup = false :=
        fun ev hev => setup_of_entry_event secEditor ev (e1 ev hev)
      have hcalls12 : ∀ b, (newEditorCalls b (evs1 ++ evs2)).length
          = if editors b = none ∧ b = r.backendType then 1 else 0 := by
        intro b
        have h2 := entry_newEditorCalls b evs2 hns2
        have h1 := c4 b
        simp only [newEditorCalls, List.filter_append, List.length_append] at h1 h2 ⊢
        rw [h2, h1]
        simp
      have hM3 : ∀ tail cur0 pre ev post, evs1 ++ evs2 = pre ++ ev :: post →
          ∀ ed kp err, ev = Event.Write ed kp err →
            ∃ b, pre.foldl curStep cur0 = some b ∧
              editorOf (hist ++ evs1 ++ tail) b = some ed := by
        intro tail cur0
        refine split_append curStep
          (fun st ev => ∀ ed kp err, ev = Event.Write ed kp err →
            ∃ b, st = some b ∧ editorOf (hist ++ evs1 ++ tail) b = some ed) cur0 evs1 evs2 ?_ ?_
        · intro pre ev post hl ed kp err hev
          subst hev
          exact absurd hl (setup_no_write evs1 g1 pre post ed kp err)
        · intro pre ev post hl ed kp err hev
          subst hev
          have hpre : ∀ x ∈ pre, x.isSetup = false :=
            fun x hx => hns2 x (by rw [hl]; simp [hx])
          rw [c3 cur0, entry_curStep pre hpre]
          refine ⟨r.backendType, rfl, ?_⟩
          rcases e1 (Event.Write ed kp err) (by rw [hl]; simp) with h | h | ⟨ed1, kp1, err1, h, hs⟩
          · simp [Event.isInner] at h
          · simp [Event.isAsk] at h
          · simp only [Event.Write.injEq] at h
            rw [hsec] at hs
            simp only [Option.some.injEq] at hs
            rw [h.1, ← hs]
            exact editorOf_append_some _ _ _ _ hed0
      have hM4 : ∀ es ed err, Event.NewEditor es ed err ∈ evs1 ++ evs2 →
          editors es.Spec.BackendType = none ∧
          ∃ pre r1 post, r :: rest = pre ++ r1 :: post ∧ r1.ExternalSecret = es ∧
            ∀ r2 ∈ pre, r2.backendType ≠ es.Spec.BackendType := by
        intro es ed err hmem
        rcases List.mem_append.mp hmem with h | h
        · obtain ⟨hes, hed⟩ := c6 es ed err h
          subst hes
          exact ⟨hed, [], r, rest, rfl, rfl, by simp⟩
        · have := hns2 _ h
          simp [Event.isSetup] at this
      have hM1short : ∀ b, (newEditorCalls b (evs1 ++ evs2)).length
          ≤ if editors b = none then 1 else 0 := by
        intro b
        rw [hcalls12 b]
        by_cases hn : editors b = none
        · by_cases hb : b = r.backendType <;> simp [hn, hb]
        · simp [hn]
      have hM3short : ∀ cur0 pre ev post, evs1 ++ evs2 = pre ++ ev :: post →
          ∀ ed kp err, ev = Event.Write ed kp err →
            ∃ b, pre.foldl curStep cur0 = some b ∧
              editorOf (hist ++ (evs1 ++ evs2)) b = some ed := by
        intro cur0 pre ev post hl ed kp err hev
        obtain ⟨b, hb1, hb2⟩ := hM3 [] cur0 pre ev post hl ed kp err hev
        refine ⟨b, hb1, ?_⟩
        rw [List.append_nil] at hb2
        rw [← List.append_assoc]
        exact editorOf_append_some _ _ _ _ hb2
      cases out2 with
      | nil =>
        have hinv1 : ∀ b, editorOf (hist ++ (evs1 ++ evs2)) b = editors1 b := by
          intro b
          rw [← List.append_assoc, editorOf_append_none _ _ _ (editorOf_entry evs2 b hns2)]
          exact c2 b
        obtain ⟨i1, i2, i3, i4⟩ := ih editors1 (hist ++ (evs1 ++ evs2)) hinv1
        rcases hrec : runResults o schema rest editors1 (hist ++ (evs1 ++ evs2))
          with ⟨out3, evs3⟩
        rw [hrec] at i1 i2 i3 i4
        simp only at i1 i2 i3 i4
        simp only [runResults, hge, hres, hrec]
        have hlen : ∀ b, (newEditorCalls b (evs1 ++ evs2 ++ evs3)).length
            = (newEditorCalls b (evs1 ++ evs2)).length + (newEditorCalls b evs3).length := by
          intro b
          simp only [newEditorCalls, List.filter_append, List.length_append]
        have hed1 : editors1 r.backendType = some ed0 := by
          rw [c5 r.backendType, hsec]
          simp
        refine ⟨?_, ?_, ?_, ?_⟩
        · intro b
          rw [hlen b, hcalls12 b]
          have h3 := i1 b
          rw [c5 b] at h3
          by_cases hb : b = r.backendType
          · subst hb
            rw [hsec] at h3
            simp only [if_true] at h3
            have h30 : (newEditorCalls r.backendType evs3).length = 0 := by
              simpa using h3
            rw [h30]
            by_cases hn : editors r.backendType = none <;> simp [hn]
          · simp only [hb, if_false, and_false] at h3 ⊢
            simpa using h3
        · intro hnil r1 hr1 hn
          rw [hlen, hcalls12]
          by_cases hb : r1.backendType = r.backendType
          · have h3 := i1 r1.backendType
            rw [hb, hed1] at h3
            have h30 : (newEditorCalls r.backendType evs3).length = 0 := by
              simpa using h3
            rw [hb] at hn ⊢
            simp [hn, h30]
          · have hmem : r1 ∈ rest := by
              rcases List.mem_cons.mp hr1 with h | h
              · rw [h] at hb
                exact absurd rfl hb
              · exact h
            have hn1 : editors1 r1.backendType = none := by
              rw [c5]
              simp [hb, hn]
            rw [i2 hnil r1 hmem hn1]
            simp [hb]
        · intro cur0
          refine split_append curStep
            (fun st ev => ∀ ed kp err, ev = Event.Write ed kp err →
              ∃ b, st = some b ∧ editorOf (hist ++ (evs1 ++ evs2 ++ evs3)) b = some ed)
            cur0 (evs1 ++ evs2) evs3 ?_ ?_
          · intro pre ev post hl ed kp err hev
            obtain ⟨b, hb1, hb2⟩ := hM3 (evs2 ++ evs3) cur0 pre ev post hl ed kp err hev
            refine ⟨b, hb1, ?_⟩
            simpa [List.append_assoc] using hb2
          · intro pre ev post hl ed kp err hev
            obtain ⟨b, hb1, hb2⟩ :=
              i3 ((evs1 ++ evs2).foldl curStep cur0) pre ev post hl ed kp err hev
            refine ⟨b, hb1, ?_⟩
            simpa [List.append_assoc] using hb2
        · intro es ed err hmem
          rcases List.mem_append.mp hmem with h | h
          · exact hM4 es ed err h
          · obtain ⟨hn1, pre, r1, post, hsplit, hes, hpre⟩ := i4 es ed err h
            have hb : es.Spec.BackendType ≠ r.backendType := by
              intro hb
              rw [hb, hed1] at hn1
              exact absurd hn1 (by simp)
            have hn : editors es.Spec.BackendType = none := by
              rw [c5] at hn1
              simpa [hb] using hn1
            refine ⟨hn, r :: pre, r1, post, by simp [hsplit], hes, ?_⟩
            intro r2 hr2
            rcases List.mem_cons.mp hr2 with h2 | h2
            · rw [h2]
              exact fun h => hb h.symm
            · exact hpre r2 h2
      | err err2 =>
        simp only [runResults, hge, hres]
        exact ⟨hM1short, fun h => absurd h (by simp), hM3short, hM4⟩
      | panic =>
        simp only [runResults, hge, hres]
        exact ⟨hM1short, fun h => absurd h (by simp), hM3short, hM4⟩

theorem getEditor_inv {Schema : Type} (o : Options Schema)
    (r : SecretError) (editors : String → Option Editor) (hist : List Event)
    (hinv : ∀ b, editorOf hist b = editors b)
    (secEditor : Option Editor) (editors1 : String → Option Editor) (evs1 : List Event)
    (h : getEditor o r editors hist = (Except.ok (secEditor, editors1), evs1)) :
    (∀ ed, secEditor = some ed → editorOf (hist ++ evs1) r.backendType = some ed) ∧
    (∀ b, editorOf (hist ++ evs1) b = editors1 b) := by
  rcases getEditor_spec o r editors hist with ⟨ed, hed, hg⟩ |
    ⟨hed, ⟨ed, err, werr, _, hg⟩ | ⟨ed, _, hg⟩⟩
  · rw [hg] at h
    simp only [Prod.mk.injEq, Except.ok.injEq] at h
    obtain ⟨⟨hs, he⟩, hev⟩ := h
    subst hs he hev
    have hsame : ∀ b, editorOf (hist ++ [Event.Infof usingFormat [r.backendType]]) b
        = editors b := by
      intro b
      rw [editorOf_append_none _ _ _ (by simp [editorOf])]
      exact hinv b
    refine ⟨?_, hsame⟩
    intro ed1 h1
    rw [hsame, hed, h1]
  · rw [hg] at h
    simp at h
  · rw [hg] at h
    simp only [Prod.mk.injEq, Except.ok.injEq] at h
    obtain ⟨⟨hs, he⟩, hev⟩ := h
    subst hs he hev
    have hed2 : editors r.ExternalSecret.Spec.BackendType = none := hed
    have hnew : ∀ b, editorOf (hist ++ [Event.Infof usingFormat [r.backendType],
        Event.NewEditor r.ExternalSecret ed none]) b
        = if b = r.backendType then ed else editors b := by
      intro b
      rw [editorOf_append, hinv b]
      by_cases hb : b = r.backendType
      · subst hb
        cases ed <;> simp [hed2, editorOf, SecretError.backendType]
      · have hb2 : ¬ (r.ExternalSecret.Spec.BackendType = b) := fun h => hb (by
          rw [← h]; rfl)
        cases ed <;> cases editors b <;> simp [editorOf, hb, hb2]
    refine ⟨?_, hnew⟩
    intro ed1 h1
    rw [hnew, h1]
    simp

theorem ownedEntries_cons (r : SecretError) (rest : List SecretError) :
    ownedEntries (r :: rest) = r.EntryErrors.map (fun e => (r, e)) ++ ownedEntries rest := by
  simp [ownedEntries]

theorem runResults_owned {Schema : Type} (o : Options Schema) (schema : Schema) :
    ∀ (results : List SecretError) (editors : String → Option Editor) (hist : List Event),
      (∀ b, editorOf hist b = editors b) →
      ∃ done, done <+: ownedEntries results ∧
        ((runResults o schema results editors hist).1 = Outcome.nil →
          done = ownedEntries results) ∧
        List.Forall₂
          (fun (re : SecretError × EntryError) (w : Editor × KeyProperties) =>
            editorOf (hist ++ (runResults o schema results editors hist).2) re.1.backendType
              = some w.1 ∧
            w.2.Key = re.2.Key ∧
            List.Forall₂ (pairOf o schema re.1.ExternalSecret.Name) re.2.Properties
              w.2.Properties)
          done (writeCalls (runResults o schema results editors hist).2) := by
  intro results
  induction results with
  | nil =>
    intro editors hist _
    exact ⟨[], List.prefix_rfl, fun _ => rfl, by simp [runResults, writeCalls]⟩
  | cons r rest ih =>
    intro editors hist hinv
    obtain ⟨g1, _⟩ := getEditor_facts o r editors hist
    rcases hge : getEditor o r editors hist with ⟨res1, evs1⟩
    rw [hge] at g1
    simp only at g1
    cases res1 with
    | error werr =>
      simp only [runResults, hge]
      refine ⟨[], List.nil_prefix, fun h => absurd h (by simp), ?_⟩
      rw [setup_writeCalls evs1 g1]
      exact List.Forall₂.nil
    | ok pr =>
      obtain ⟨secEditor, editors1⟩ := pr
      obtain ⟨c1, c2⟩ := getEditor_inv o r editors hist hinv secEditor editors1 evs1 hge
      obtain ⟨e1, _⟩ :=
        runEntries_facts o schema secEditor r.ExternalSecret.Name r.EntryErrors (hist ++ evs1)
      obtain ⟨done2, hpre2, hnil2, hall2⟩ :=
        runEntries_owned o schema secEditor r.ExternalSecret.Name r.EntryErrors (hist ++ evs1)
      rcases hres : runEntries o schema secEditor r.ExternalSecret.Name r.EntryErrors
        (hist ++ evs1) with ⟨out2, evs2⟩
      rw [hres] at e1 hnil2 hall2
      simp only at e1 hnil2 hall2
      have hns2 : ∀ ev ∈ evs2, ev.isSetup = false :=
        fun ev hev => setup_of_entry_event secEditor ev (e1 ev hev)
      have hwc12 : writeCalls (evs1 ++ evs2) = writeCalls evs2 := by
        rw [writeCalls_append, setup_writeCalls evs1 g1]
        rfl
      have hhead : ∀ tail, List.Forall₂
          (fun (re : SecretError × EntryError) (w : Editor × KeyProperties) =>
            editorOf (hist ++ (evs1 ++ evs2 ++ tail)) re.1.backendType = some w.1 ∧
            w.2.Key = re.2.Key ∧
            List.Forall₂ (pairOf o schema re.1.ExternalSecret.Name) re.2.Properties
              w.2.Properties)
          (done2.map (fun e => (r, e))) (writeCalls evs2) := by
        intro tail
        rw [List.forall₂_map_left_iff]
        refine List.Forall₂.imp ?_ hall2
        intro e w hw
        refine ⟨?_, hw.2.1, hw.2.2⟩
        have := c1 w.1 hw.1
        have happ : hist ++ (evs1 ++ evs2 ++ tail) = (hist ++ evs1) ++ (evs2 ++ tail) := by
          simp
        rw [happ]
        exact editorOf_append_some _ _ _ _ this
      have hpre12 : done2.map (fun e => (r, e)) <+: ownedEntries (r :: rest) := by
        rw [ownedEntries_cons]
        exact List.IsPrefix.trans (List.IsPrefix.map _ hpre2) (List.prefix_append _ _)
      cases out2 with
      | nil =>
        have hinv1 : ∀ b, editorOf (hist ++ (evs1 ++ evs2)) b = editors1 b := by
          intro b
          rw [← List.append_assoc, editorOf_append_none _ _ _ (editorOf_entry evs2 b hns2)]
          exact c2 b
        obtain ⟨done3, hpre3, hnil3, hall3⟩ := ih editors1 (hist ++ (evs1 ++ evs2)) hinv1
        rcases hrec : runResults o schema rest editors1 (hist ++ (evs1 ++ evs2))
          with ⟨out3, evs3⟩
        rw [hrec] at hnil3 hall3
        simp only at hnil3 hall3
        simp only [runResults, hge, hres, hrec]
        have hd2 := hnil2 rfl
        subst hd2
        refine ⟨r.EntryErrors.map (fun e => (r, e)) ++ done3, ?_, ?_, ?_⟩
        · rw [ownedEntries_cons]
          exact (List.prefix_append_right_inj _).mpr hpre3
        · intro h
          rw [ownedEntries_cons, hnil3 h]
        · rw [writeCalls_append, hwc12]
          refine List.rel_append (hhead evs3) ?_
          have happ : hist ++ (evs1 ++ evs2 ++ evs3) = hist ++ (evs1 ++ evs2) ++ evs3 := by
            simp
          rw [happ]
          exact hall3
      | err err2 =>
        simp only [runResults, hge, hres]
        refine ⟨done2.map (fun e => (r, e)), hpre12, fun h => absurd h (by simp), ?_⟩
        rw [hwc12]
        simpa using hhead []
      | panic =>
        simp only [runResults, hge, hres]
        refine ⟨done2.map (fun e => (r, e)), hpre12, fun h => absurd h (by simp), ?_⟩
        rw [hwc12]
        simpa using hhead []

theorem editorOf_made (l : List Event) (b : String) (ed : Editor)
    (h : editorOf l b = some ed) :
    ∃ secret, Event.NewEditor secret (some ed) none ∈ l ∧ secret.Spec.BackendType = b := by
  induction l with
  | nil => simp [editorOf] at h
  | cons ev l ih =>
    have hrest : editorOf l b = some ed →
        ∃ secret, Event.NewEditor secret (some ed) none ∈ ev :: l ∧
          secret.Spec.BackendType = b := by
      intro h1
      obtain ⟨secret, hm, hb⟩ := ih h1
      exact ⟨secret, List.mem_cons_of_mem _ hm, hb⟩
    cases ev with
    | NewEditor secret editor err =>
      cases editor with
      | none => exact hrest (by simpa [editorOf] using h)
      | some ed1 =>
        cases err with
        | some e => exact hrest (by simpa [editorOf] using h)
        | none =>
          by_cases hb : secret.Spec.BackendType = b
          · simp only [editorOf, hb, if_true, Option.some.injEq] at h
            subst h
            exact ⟨secret, List.mem_cons_self _ _, hb⟩
          · exact hrest (by simpa [editorOf, hb] using h)
    | _ => exact hrest (by simpa [editorOf] using h)

/-! ## Facts about `Run` -/

theorem Run_cases {Schema : Type} (o : Options Schema) :
    ((Run o).2 = [] ∧ ∃ err, (Run o).1 = Outcome.err err) ∨
    (o.Verify.1 = [] ∧ (Run o).1 = Outcome.nil ∧
      (Run o).2 = [Event.Infof "the %d ExternalSecrets are %s"
        [toString o.ExternalSecretsLen, o.ColorInfo "populated"]]) ∨
    (∃ schema, schema = (o.LoadSchema (o.Join [o.Dir, ".jx", "gitops", "secret-schema.yaml"])).1 ∧
      Run o = runResults o schema o.Verify.1 (fun _ => none) []) := by
  rcases hv : o.Verify with ⟨results, _ | err⟩
  · by_cases hlen : results.length = 0
    · refine Or.inr (Or.inl ⟨?_, ?_, ?_⟩)
      · simpa using hlen
      · simp [Run, hv, hlen]
      · simp [Run, hv, hlen]
    · rcases hl : o.LoadSchema (o.Join [o.Dir, ".jx", "gitops", "secret-schema.yaml"])
        with ⟨schema, _ | err⟩
      · exact Or.inr (Or.inr ⟨schema, by simp [hl], by simp [Run, hv, hlen, hl]⟩)
      · exact Or.inl ⟨by simp [Run, hv, hlen, hl], _, by simp [Run, hv, hlen, hl]; rfl⟩
  · exact Or.inl ⟨by simp [Run, hv], _, by simp [Run, hv]; rfl⟩

theorem forall₂_getElem? {α β : Type} (R : α → β → Prop) (l1 : List α) (l2 : List β)
    (h : List.Forall₂ R l1 l2) :
    l2.length = l1.length ∧
      ∀ (i : Nat) (a : α), l1[i]? = some a → ∃ b : β, l2[i]? = some b ∧ R a b := by
  induction h with
  | nil => simp
  | cons hab _ ih =>
    refine ⟨by simp [ih.1], ?_⟩
    intro i a hi
    cases i with
    | zero =>
      simp only [List.getElem?_cons_zero, Option.some.injEq] at hi
      subst hi
      exact ⟨_, by simp, hab⟩
    | succ i =>
      simp only [List.getElem?_cons_succ] at hi ⊢
      exact ih.2 i a hi

theorem writes_eq_writeCalls (l : List Event) :
    writes l = (writeCalls l).map Prod.snd := by
  induction l with
  | nil => rfl
  | cons ev l ih =>
    unfold writes writeCalls at ih ⊢
    cases ev <;> simp [ih]

theorem Run_owned {Schema : Type} (o : Options Schema) :
    ∃ done, done <+: ownedEntries o.Verify.1 ∧
      ((Run o).1 = Outcome.nil → done = ownedEntries o.Verify.1) ∧
      List.Forall₂
        (fun (re : SecretError × EntryError) (w : Editor × KeyProperties) =>
          editorOf (Run o).2 re.1.backendType = some w.1 ∧
          w.2.Key = re.2.Key ∧
          List.Forall₂
            (pairOf o (o.LoadSchema (o.Join [o.Dir, ".jx", "gitops", "secret-schema.yaml"])).1
              re.1.ExternalSecret.Name) re.2.Properties w.2.Properties)
        done (writeCalls (Run o).2) := by
  rcases Run_cases o with ⟨hevs, err, herr⟩ | ⟨hres, _, hevs⟩ | ⟨schema, hschema, hrun⟩
  · rw [hevs, herr]
    exact ⟨[], List.nil_prefix, fun h => absurd h (by simp), by simp [writeCalls]⟩
  · rw [hevs, hres]
    exact ⟨[], List.nil_prefix, fun _ => by simp [ownedEntries], by simp [writeCalls]⟩
  · obtain ⟨done, h1, h2, h3⟩ :=
      runResults_owned o schema o.Verify.1 (fun _ => none) [] (by simp [editorOf])
    rw [← hrun] at h2 h3
    subst hschema
    exact ⟨done, h1, h2, by simpa using h3⟩

/-! ## C7 -/

/-- C7: the `secret` template function, called with `(secretName, key)` under
the namespace `ns0`, gets the secret `ResolveResourceNames(secretName, ns0)`
names and returns the payload value stored under `key`; when each attempt
answers "not found" and hands back no payload, when an attempt fails with
another error, or when the secret that is returned has no payload, it returns
the empty string, and in none of these cases does it panic. -/
theorem funcMap_secret_contract (env : TemplateEnv)
    (ns0 secretName key lookupSecret ns : String)
    (hres : ResolveResourceNames secretName ns0 = some (lookupSecret, ns)) :
    (∀ k s data, k < DefaultBackoffSteps → NotFoundUntil env ns lookupSecret k →
        env.Get k ns lookupSecret = (some s, none) → s.Data = some data →
        funcMap_secret env ns0 secretName key = some (goMapIndex data key) ∧
        (∀ v, data.lookup key = some v → funcMap_secret env ns0 secretName key = some v)) ∧
    (NotFoundUntil env ns lookupSecret DefaultBackoffSteps →
        noPayload (env.Get (DefaultBackoffSteps - 1) ns lookupSecret).1 = true →
        funcMap_secret env ns0 secretName key = some "") ∧
    (∀ k s e, k < DefaultBackoffSteps → NotFoundUntil env ns lookupSecret k →
        env.Get k ns lookupSecret = (s, some e) → env.IsNotFound e = false →
        funcMap_secret env ns0 secretName key = some "") ∧
    (∀ k s, k < DefaultBackoffSteps → NotFoundUntil env ns lookupSecret k →
        env.Get k ns lookupSecret = (s, none) → noPayload s = true →
        funcMap_secret env ns0 secretName key = some "") := by
  refine ⟨?_, ?_, ?_, ?_⟩
  · intro k s data hk hnf hget hdata
    have hf := getSecretWithRetry_found env ns lookupSecret k (some s) hk hnf hget
    obtain ⟨d⟩ := s
    simp only at hdata
    subst hdata
    have hr : funcMap_secret env ns0 secretName key = some (goMapIndex data key) := by
      simp [funcMap_secret, hres, hf, isOtherError]
    refine ⟨hr, ?_⟩
    intro v hv
    rw [hr]
    simp [goMapIndex, hv]
  · intro hnf hno
    obtain ⟨e, he, hf⟩ := getSecretWithRetry_exhausted env ns lookupSecret hnf
    rcases hs : (env.Get (DefaultBackoffSteps - 1) ns lookupSecret).1 with _ | ⟨_ | d⟩
    · simp [funcMap_secret, hres, hf, isOtherError, he, hs]
    · simp [funcMap_secret, hres, hf, isOtherError, he, hs]
    · rw [hs] at hno
      simp [noPayload] at hno
  · intro k s e hk hnf hget he
    have hf := getSecretWithRetry_other env ns lookupSecret k s e hk hnf hget he
    simp [funcMap_secret, hres, hf, isOtherError, he]
  · intro k s hk hnf hget hno
    have hf := getSecretWithRetry_found env ns lookupSecret k s hk hnf hget
    rcases s with _ | ⟨_ | d⟩
    · simp [funcMap_secret, hres, hf, isOtherError]
    · simp [funcMap_secret, hres, hf, isOtherError]
    · simp [noPayload] at hno

theorem funcMap_secret_contract_witness :
    funcMap_secret (exampleStore [("username", "bob")]) "dev" "jx.creds" "username" = some "bob" ∧
    funcMap_secret emptyStore "dev" "jx.creds" "username" = some "" :=
  ⟨((funcMap_secret_contract (exampleStore [("username", "bob")]) "dev" "jx.creds" "username"
      "creds" "jx" (by decide)).1 0 { Data := some [("username", "bob")] } [("username", "bob")]
      (by decide) (by decide) (by decide) rfl).1,
   (funcMap_secret_contract emptyStore "dev" "jx.creds" "username" "creds" "jx"
      (by decide)).2.1 (by decide) (by decide)⟩

/-! ## C6 -/

/-- C6: the `htpasswdSecret` template function returns the empty string when
the secret or its payload is absent, when the value under `usernameKey` is
missing or empty, when that username contains `:`, and when the value under
`passwordKey` is missing or empty; in every other case, the hash function
succeeding, it returns `username ++ ":" ++ hash(password)`. -/
theorem funcMap_htpasswdSecret_contract (env : TemplateEnv)
    (ns0 secretName usernameKey passwordKey lookupSecret ns : String)
    (hres : ResolveResourceNames secretName ns0 = some (lookupSecret, ns)) :
    (NotFoundUntil env ns lookupSecret DefaultBackoffSteps →
        noPayload (env.Get (DefaultBackoffSteps - 1) ns lookupSecret).1 = true →
        funcMap_htpasswdSecret env ns0 secretName usernameKey passwordKey = some "") ∧
    (∀ k s e, k < DefaultBackoffSteps → NotFoundUntil env ns lookupSecret k →
        env.Get k ns lookupSecret = (s, some e) → env.IsNotFound e = false →
        funcMap_htpasswdSecret env ns0 secretName usernameKey passwordKey = some "") ∧
    (∀ k s, k < DefaultBackoffSteps → NotFoundUntil env ns lookupSecret k →
        env.Get k ns lookupSecret = (s, none) → noPayload s = true →
        funcMap_htpasswdSecret env ns0 secretName usernameKey passwordKey = some "") ∧
    (∀ k s data, k < DefaultBackoffSteps → NotFoundUntil env ns lookupSecret k →
        env.Get k ns lookupSecret = (some s, none) → s.Data = some data →
        (goMapIndex data usernameKey = "" →
          funcMap_htpasswdSecret env ns0 secretName usernameKey passwordKey = some "") ∧
        (':' ∈ (goMapIndex data usernameKey).data →
          funcMap_htpasswdSecret env ns0 secretName usernameKey passwordKey = some "") ∧
        (goMapIndex data passwordKey = "" →
          funcMap_htpasswdSecret env ns0 secretName usernameKey passwordKey = some "") ∧
        (goMapIndex data usernameKey ≠ "" → ':' ∉ (goMapIndex data usernameKey).data →
          goMapIndex data passwordKey ≠ "" →
          ∀ hash, env.GenerateFromPassword (goMapIndex data passwordKey) bcryptDefaultCost
              = (hash, none) →
            funcMap_htpasswdSecret env ns0 secretName usernameKey passwordKey
              = some (goMapIndex data usernameKey ++ ":" ++ hash))) := by
  refine ⟨?_, ?_, ?_, ?_⟩
  · intro hnf hno
    obtain ⟨e, he, hf⟩ := getSecretWithRetry_exhausted env ns lookupSecret hnf
    rcases hs : (env.Get (DefaultBackoffSteps - 1) ns lookupSecret).1 with _ | ⟨_ | d⟩
    · simp [funcMap_htpasswdSecret, hres, hf, isOtherError, he, hs]
    · simp [funcMap_htpasswdSecret, hres, hf, isOtherError, he, hs]
    · rw [hs] at hno
      simp [noPayload] at hno
  · intro k s e hk hnf hget he
    have hf := getSecretWithRetry_other env ns lookupSecret k s e hk hnf hget he
    simp [funcMap_htpasswdSecret, hres, hf, isOtherError, he]
  · intro k s hk hnf hget hno
    have hf := getSecretWithRetry_found env ns lookupSecret k s hk hnf hget
    rcases s with _ | ⟨_ | d⟩
    · simp [funcMap_htpasswdSecret, hres, hf, isOtherError]
    · simp [funcMap_htpasswdSecret, hres, hf, isOtherError]
    · simp [noPayload] at hno
  · intro k s data hk hnf hget hdata
    have hf := getSecretWithRetry_found env ns lookupSecret k (some s) hk hnf hget
    obtain ⟨d⟩ := s
    simp only at hdata
    subst hdata
    have hr : funcMap_htpasswdSecret env ns0 secretName usernameKey passwordKey
        = (if goMapIndex data usernameKey = "" then some ""
           else if stringsContains (goMapIndex data usernameKey) ":" = true then some ""
           else if goMapIndex data passwordKey = "" then some ""
           else match env.GenerateFromPassword (goMapIndex data passwordKey) bcryptDefaultCost with
             | (_, some _) => some ""
             | (hash, none) => some (goMapIndex data usernameKey ++ ":" ++ hash)) := by
      simp [funcMap_htpasswdSecret, hres, hf, isOtherError]
    refine ⟨?_, ?_, ?_, ?_⟩
    · intro hu
      rw [hr, if_pos hu]
    · intro hc
      have hc2 := (stringsContains_colon _).mpr hc
      rw [hr, if_pos hc2]
      simp
    · intro hp
      rw [hr, if_pos hp]
      simp
    · intro hu hc hp hash hh
      have hc2 : ¬ (stringsContains (goMapIndex data usernameKey) ":" = true) :=
        fun h => hc ((stringsContains_colon _).mp h)
      rw [hr, if_neg hu, if_neg hc2, if_neg hp, hh]

theorem funcMap_htpasswdSecret_contract_witness :
    funcMap_htpasswdSecret (exampleStore [("username", "bob"), ("password", "hunter2")])
      "jx" "creds" "username" "password" = some ("bob" ++ ":" ++ "$2a$10$hunter2") ∧
    funcMap_htpasswdSecret (exampleStore [("username", "bo:b"), ("password", "hunter2")])
      "jx" "creds" "username" "password" = some "" ∧
    funcMap_htpasswdSecret emptyStore "jx" "creds" "username" "password" = some "" :=
  ⟨((funcMap_htpasswdSecret_contract
      (exampleStore [("username", "bob"), ("password", "hunter2")])
      "jx" "creds" "username" "password" "creds" "jx" (by decide)).2.2.2 0
      { Data := some [("username", "bob"), ("password", "hunter2")] }
      [("username", "bob"), ("password", "hunter2")]
      (by decide) (by decide) (by decide) rfl).2.2.2
      (by decide) (by decide) (by decide) "$2a$10$hunter2" (by decide),
   ((funcMap_htpasswdSecret_contract
      (exampleStore [("username", "bo:b"), ("password", "hunter2")])
      "jx" "creds" "username" "password" "creds" "jx" (by decide)).2.2.2 0
      { Data := some [("username", "bo:b"), ("password", "hunter2")] }
      [("username", "bo:b"), ("password", "hunter2")]
      (by decide) (by decide) (by decide) rfl).2.1 (by decide),
   (funcMap_htpasswdSecret_contract emptyStore "jx" "creds" "username" "password" "creds" "jx"
      (by decide)).1 (by decide) (by decide)⟩

/-! ## C8 -/

/-- C8: for a secret that is present with a payload holding `u` under
`userKey` and `p` under `passwordKey`, the `auth` template function returns
exactly `u ++ ":" ++ p`, the password being neither hashed nor changed. -/
theorem funcMap_auth_present (env : TemplateEnv)
    (ns0 secretName userKey passwordKey lookupSecret ns : String)
    (hres : ResolveResourceNames secretName ns0 = some (lookupSecret, ns))
    (k : Nat) (s : Secret) (data : GoMap) (u p : String)
    (hk : k < DefaultBackoffSteps) (hnf : NotFoundUntil env ns lookupSecret k)
    (hget : env.Get k ns lookupSecret = (some s, none)) (hdata : s.Data = some data)
    (hu : data.lookup userKey = some u) (hp : data.lookup passwordKey = some p) :
    funcMap_auth env ns0 secretName userKey passwordKey = some (u ++ ":" ++ p) := by
  have hf := getSecretWithRetry_found env ns lookupSecret k (some s) hk hnf hget
  obtain ⟨d⟩ := s
  simp only at hdata
  subst hdata
  simp [funcMap_auth, hres, hf, isOtherError, goMapIndex, hu, hp]

theorem funcMap_auth_present_witness :
    funcMap_auth (exampleStore [("username", "bob"), ("password", "hunter2")])
      "jx" "creds" "username" "password" = some "bob:hunter2" :=
  funcMap_auth_present (exampleStore [("username", "bob"), ("password", "hunter2")])
    "jx" "creds" "username" "password" "creds" "jx" (by decide) 0
    { Data := some [("username", "bob"), ("password", "hunter2")] }
    [("username", "bob"), ("password", "hunter2")] "bob" "hunter2"
    (by decide) (by decide) (by decide) rfl (by decide) (by decide)

/-! ## C9 -/

/-- C9: where the secret is present and its payload lacks the password key,
or both keys, `auth` returns `"bob:"` and `":"` and not the empty string;
`htpasswdSecret` returns the empty string on the same stores, and `auth`
itself returns it when the secret is absent. -/
theorem funcMap_auth_missing_key :
    funcMap_auth (exampleStore [("username", "bob")]) "jx" "creds" "username" "password"
      = some "bob:" ∧
    funcMap_auth (exampleStore []) "jx" "creds" "username" "password" = some ":" ∧
    funcMap_htpasswdSecret (exampleStore [("username", "bob")]) "jx" "creds" "username" "password"
      = some "" ∧
    funcMap_htpasswdSecret (exampleStore []) "jx" "creds" "username" "password" = some "" ∧
    funcMap_auth emptyStore "jx" "creds" "username" "password" = some "" := by
  decide

/-! ## C5 -/

/-- C5: when the schema lookup succeeds and finds no property spec,
`askForSecretValue` prompts exactly once through `PickPassword`, with the
message `e.Key ++ "." ++ property` and the empty help, and returns the value
the operator gave, unchanged and without an error; when the prompt fails it
returns the empty string with an error. -/
theorem askForSecretValue_no_spec {Schema : Type} (o : Options Schema) (schema : Schema)
    (hist : List Event) (e : EntryError) (property name : String)
    (hfind : o.FindObjectProperty schema name property = (none, none)) :
    (askForSecretValue o schema hist e property name).2
      = [Event.PickPassword (e.Key ++ "." ++ property) ""
          (o.PickPassword hist (e.Key ++ "." ++ property) "").1
          (o.PickPassword hist (e.Key ++ "." ++ property) "").2] ∧
    ((o.PickPassword hist (e.Key ++ "." ++ property) "").2 = none →
      (askForSecretValue o schema hist e property name).1
        = ((o.PickPassword hist (e.Key ++ "." ++ property) "").1, none)) ∧
    (∀ perr, (o.PickPassword hist (e.Key ++ "." ++ property) "").2 = some perr →
      ∃ err, (askForSecretValue o schema hist e property name).1 = ("", some err)) := by
  rw [askForSecretValue_none o schema hist e property name hfind]
  refine ⟨rfl, ?_, ?_⟩
  · intro h
    simp [h]
  · intro perr h
    simp [h]

theorem askForSecretValue_no_spec_witness :
    askForSecretValue (exampleOptions []) () [] { Key := "db", Properties := ["password"] }
        "password" "a"
      = (("value of db.password", none),
         [Event.PickPassword "db.password" "" "value of db.password" none]) ∧
    (∃ err, (askForSecretValue (exampleOptions []) () []
        { Key := "db", Properties := ["broken"] } "broken" "a").1 = ("", some err)) :=
  have h1 := askForSecretValue_no_spec (exampleOptions []) () []
    { Key := "db", Properties := ["password"] } "password" "a" (by decide)
  have h2 := askForSecretValue_no_spec (exampleOptions []) () []
    { Key := "db", Properties := ["broken"] } "broken" "a" (by decide)
  ⟨Prod.ext (h1.2.1 (by decide)) h1.1, h2.2.2 (GoError.New "aborted") (by decide)⟩

/-! ## C10 -/

/-- C10: for a property whose schema spec is found with the kind "confirm",
`askForSecretValue` makes no prompt and returns the empty string with a `nil`
error; `Run` then appends the property with the empty value to the batch of
its key and hands it to `Write`: the calls of `Write` are, in order, those of
the missing entries (all of them when `Run` returns `nil`), each with the key
of its entry and one pair for each property, empty for a property of the kind
"confirm"; the handling of a key whose resolutions succeed ends in that
`Write`, and for a key with properties of that kind only the batch written is
every property with the empty value.  For a spec of any other kind, none
included, `askForSecretValue` prompts exactly once with the question and the
help of the spec and returns the value and the error of the prompt
unchanged. -/
theorem askForSecretValue_found_spec {Schema : Type} (o : Options Schema) (schema : Schema)
    (hist : List Event) (e : EntryError) (property name : String) (propertySpec : Property)
    (hfind : o.FindObjectProperty schema name property = (some propertySpec, none)) :
    (goMapIndex propertySpec.Labels o.LabelKind = "confirm" →
      (askForSecretValue o schema hist e property name).1 = ("", none) ∧
      (∀ ev ∈ (askForSecretValue o schema hist e property name).2, ev.isPrompt = false) ∧
      ∀ secEditor e2 hist2 ed kp err,
        Event.Write ed kp err ∈ (runEntry o schema secEditor name e2 hist2).2 →
          kp.Key = e2.Key ∧ kp.Properties.length = e2.Properties.length ∧
          ∀ i : Nat, e2.Properties[i]? = some property →
            kp.Properties[i]? = some (PropertyValue.mk property "")) ∧
    (goMapIndex propertySpec.Labels o.LabelKind ≠ "confirm" →
      (askForSecretValue o schema hist e property name).1
        = o.PickPassword hist propertySpec.Question propertySpec.Help ∧
      (askForSecretValue o schema hist e property name).2
        = [Event.PickPassword propertySpec.Question propertySpec.Help
            (o.PickPassword hist propertySpec.Question propertySpec.Help).1
            (o.PickPassword hist propertySpec.Question propertySpec.Help).2]) ∧
    (∀ ed kp err, Event.Write ed kp err ∈ (Run o).2 →
      ∃ r ∈ o.Verify.1, ∃ e2 ∈ r.EntryErrors,
        kp.Key = e2.Key ∧ kp.Properties.length = e2.Properties.length ∧
        ∀ (i : Nat) (p : String), e2.Properties[i]? = some p →
          isConfirm o (o.LoadSchema (o.Join [o.Dir, ".jx", "gitops", "secret-schema.yaml"])).1
            r.ExternalSecret.Name p = true →
          kp.Properties[i]? = some (PropertyValue.mk p "")) ∧
    (∃ done, done <+: ownedEntries o.Verify.1 ∧
      ((Run o).1 = Outcome.nil → done = ownedEntries o.Verify.1) ∧
      List.Forall₂
        (fun (re : SecretError × EntryError) (kp : KeyProperties) =>
          kp.Key = re.2.Key ∧
          List.Forall₂
            (pairOf o (o.LoadSchema (o.Join [o.Dir, ".jx", "gitops", "secret-schema.yaml"])).1
              re.1.ExternalSecret.Name) re.2.Properties kp.Properties)
        done (writes (Run o).2)) ∧
    (∀ (ed : Editor) (e2 : EntryError) (hist2 : List Event),
      (∀ ev ∈ (runEntry o schema (some ed) name e2 hist2).2,
        ev.isAsk = true → ev.failed = false) →
      ∃ pre kp,
        (runEntry o schema (some ed) name e2 hist2).2
          = pre ++ [Event.Write ed kp (o.Write (hist2 ++ pre) ed kp)] ∧
        (∀ ev ∈ pre, ev.isInner = true ∨ ev.isAsk = true) ∧
        kp.Key = e2.Key ∧ List.Forall₂ (pairOf o schema name) e2.Properties kp.Properties) ∧
    (∀ (ed : Editor) (e2 : EntryError) (hist2 : List Event),
      (∀ p ∈ e2.Properties, isConfirm o schema name p = true) →
      writeCalls (runEntry o schema (some ed) name e2 hist2).2
        = [(ed, { Key := e2.Key,
                  Properties := e2.Properties.map (fun p => PropertyValue.mk p "") })]) := by
  refine ⟨?_, ?_, ?_, ?_, ?_, ?_⟩
  · intro hkind
    rw [askForSecretValue_confirm o schema hist e property name propertySpec hfind hkind]
    refine ⟨rfl, by simp [Event.isPrompt], ?_⟩
    intro secEditor e2 hist2 ed kp err hmem
    obtain ⟨f1, _⟩ := runEntry_facts o schema secEditor name e2 hist2
    rcases f1 _ hmem with h | h | ⟨ed1, kp1, err1, heq, _, hkey, hfor⟩
    · simp [Event.isInner] at h
    · simp [Event.isAsk] at h
    · simp only [Event.Write.injEq] at heq
      obtain ⟨_, hkp, _⟩ := heq
      subst hkp
      obtain ⟨hlen, hget⟩ := forall₂_getElem? _ _ _ hfor
      refine ⟨hkey, hlen, ?_⟩
      intro i hi
      obtain ⟨pv, hpv, hp1, hp2⟩ := hget i property hi
      have hc : isConfirm o schema name property = true := by
        simp [isConfirm, hfind, hkind]
      have hv := hp2 hc
      rw [hpv]
      cases pv
      simp_all
  · intro hkind
    rw [askForSecretValue_default o schema hist e property name propertySpec hfind hkind]
    exact ⟨rfl, rfl⟩
  · intro ed kp err hmem
    rcases Run_cases o with ⟨hevs, _, _⟩ | ⟨_, _, hevs⟩ | ⟨schema1, hschema, hrun⟩
    · rw [hevs] at hmem
      simp at hmem
    · rw [hevs] at hmem
      simp at hmem
    · rw [hrun] at hmem
      obtain ⟨r, hr, e2, he2, hkey, hfor⟩ :=
        runResults_pairs o schema1 o.Verify.1 (fun _ => none) [] ed kp err hmem
      obtain ⟨hlen, hget⟩ := forall₂_getElem? _ _ _ hfor
      refine ⟨r, hr, e2, he2, hkey, hlen, ?_⟩
      intro i p hi hc
      rw [← hschema] at hc
      obtain ⟨pv, hpv, hp1, hp2⟩ := hget i p hi
      have hv := hp2 hc
      rw [hpv]
      cases pv
      simp_all
  · obtain ⟨done, h1, h2, h3⟩ := Run_owned o
    refine ⟨done, h1, h2, ?_⟩
    rw [writes_eq_writeCalls, List.forall₂_map_right_iff]
    exact List.Forall₂.imp (fun re w hw => hw.2) h3
  · intro ed e2 hist2 hclean
    exact runEntry_resolved o schema ed name e2 hist2 hclean
  · intro ed e2 hist2 hall
    exact runEntry_confirm o schema ed name e2 hist2 hall

theorem askForSecretValue_found_spec_witness :
    askForSecretValue (exampleOptions exampleResults) () []
        { Key := "git", Properties := ["confirmed"] } "confirmed" "b"
      = (("", none), [Event.Warn "implement confirm"]) ∧
    askForSecretValue (exampleOptions exampleResults) () []
        { Key := "git", Properties := ["token"] } "token" "b"
      = (("value of API token", none),
         [Event.PickPassword "API token" "from the web page" "value of API token" none]) ∧
    List.Forall₂
      (fun (re : SecretError × EntryError) (kp : KeyProperties) =>
        kp.Key = re.2.Key ∧
        List.Forall₂ (pairOf (exampleOptions exampleResults) () re.1.ExternalSecret.Name)
          re.2.Properties kp.Properties)
      (ownedEntries exampleResults) (writes (Run (exampleOptions exampleResults)).2) ∧
    (writes (Run (exampleOptions exampleResults)).2)[1]?
      = some { Key := "git", Properties :=
          [{ Property := "token", Value := "value of API token" },
           { Property := "confirmed", Value := "" }] } ∧
    writeCalls (runEntry (exampleOptions exampleResults) () (some 8) "b"
        { Key := "git", Properties := ["confirmed", "confirmed"] } []).2
      = [(8, { Key := "git", Properties :=
          [{ Property := "confirmed", Value := "" },
           { Property := "confirmed", Value := "" }] })] := by
  have h1 := askForSecretValue_found_spec (exampleOptions exampleResults) () []
    { Key := "git", Properties := ["confirmed"] } "confirmed" "b"
    { Question := "Sure?", Help := "say yes", Labels := [("kind", "confirm")] } (by decide)
  have h2 := askForSecretValue_found_spec (exampleOptions exampleResults) () []
    { Key := "git", Properties := ["token"] } "token" "b"
    { Question := "API token", Help := "from the web page", Labels := [] } (by decide)
  refine ⟨Prod.ext (h1.1 (by decide)).1 (by decide),
    Prod.ext (h2.2.1 (by decide)).1 (h2.2.1 (by decide)).2, ?_, by decide,
    h1.2.2.2.2.2 8 { Key := "git", Properties := ["confirmed", "confirmed"] } []
      (by decide)⟩
  obtain ⟨done, _, hnil, hall⟩ := h1.2.2.2.1
  have hd : done = ownedEntries exampleResults := hnil (by decide)
  rw [hd] at hall
  exact hall

/-! ## C2 -/

/-- C2: when `Run` returns `nil`, so that every resolution and every write
succeeded, `Write` was called exactly once for each missing entry of each
result, in the order of the entries, with the key of the entry and one pair
for each of its missing properties in their order; the pairs of a batch are
the values `askForSecretValue` returned for that key since the `Write` before,
and no resolved value is left unwritten.  The same holds of the loop over the
entries of one result, with an editor that is not `nil`, whenever no
resolution and no write of the loop failed. -/
theorem Run_writes_each_entry_once {Schema : Type} (o : Options Schema) :
    ((Run o).1 = Outcome.nil →
      (writes (Run o).2).map KeyProperties.names = missingEntries o.Verify.1 ∧
      (∀ pre ed kp err post, (Run o).2 = pre ++ Event.Write ed kp err :: post →
        pendingAfter pre = kp.Properties.map (fun pv => (kp.Key, pv)) ∧ err = none) ∧
      pendingAfter (Run o).2 = []) ∧
    (∀ (schema : Schema) (ed : Editor) (name : String) (entries : List EntryError)
        (hist : List Event),
      (∀ ev ∈ (runEntries o schema (some ed) name entries hist).2, ev.failed = false) →
        (runEntries o schema (some ed) name entries hist).1 = Outcome.nil ∧
        (writes (runEntries o schema (some ed) name entries hist).2).map KeyProperties.names
          = entries.map (fun e => (e.Key, e.Properties)) ∧
        (∀ pre ed1 kp err post,
          (runEntries o schema (some ed) name entries hist).2
            = pre ++ Event.Write ed1 kp err :: post →
          ed1 = ed ∧ pendingAfter pre = kp.Properties.map (fun pv => (kp.Key, pv)))) := by
  refine ⟨?_, ?_⟩
  · intro hnil
    rcases Run_cases o with ⟨_, err, herr⟩ | ⟨hres, _, hevs⟩ | ⟨schema, _, hrun⟩
    · rw [herr] at hnil
      exact absurd hnil (by simp)
    · rw [hevs, hres]
      refine ⟨by simp [writes, missingEntries], ?_, by simp [pendingAfter, pendStep]⟩
      intro pre ed kp err post hl
      cases pre with
      | nil => simp at hl
      | cons x xs => simp at hl
    · obtain ⟨_, r2, r3, _, _⟩ := runResults_facts o schema o.Verify.1 (fun _ => none) []
      rw [← hrun] at r2 r3
      obtain ⟨h1, h2, h3, _⟩ := r2 hnil
      refine ⟨h1, ?_, h2⟩
      intro pre ed kp err post hl
      refine ⟨r3 pre _ post hl ed kp err rfl, ?_⟩
      have := h3 (Event.Write ed kp err) (by rw [hl]; simp)
      cases err with
      | none => rfl
      | some e => simp [Event.failed] at this
  · intro schema ed name entries hist hclean
    have hnil := runEntries_clean_nil o schema ed name entries hist hclean
    obtain ⟨e1, _, e3, e4, _⟩ := runEntries_facts o schema (some ed) name entries hist
    refine ⟨hnil, (e3 hnil).1, ?_⟩
    intro pre ed1 kp err post hl
    refine ⟨?_, e4 pre _ post hl ed1 kp err rfl⟩
    rcases e1 (Event.Write ed1 kp err) (by rw [hl]; simp) with h | h | ⟨ed2, kp2, err2, h, hs⟩
    · simp [Event.isInner] at h
    · simp [Event.isAsk] at h
    · simp only [Event.Write.injEq] at h
      simp only [Option.some.injEq] at hs
      rw [h.1, hs]

theorem Run_writes_each_entry_once_witness :
    (writes (Run (exampleOptions exampleResults)).2).map KeyProperties.names
      = [("db", ["user", "password"]), ("git", ["token", "confirmed"]), ("s3", ["key"]),
         ("gcs", [])] :=
  ((Run_writes_each_entry_once (exampleOptions exampleResults)).1 (by decide)).1

/-! ## C4 -/

/-- C4: `Run` stops at the first failure: a resolution, a `Write` or a
`NewEditor` that fails is the last event of the run and `Run` returns an
error; `Run` returns `nil` only when no call failed; every `Write` of a run,
failed or not, carries the whole batch of an entry; and the handling of a key
in which a resolution fails calls no `Write` and ends in an error. -/
theorem Run_fail_fast {Schema : Type} (o : Options Schema) :
    (∀ pre ev post, (Run o).2 = pre ++ ev :: post → ev.failed = true →
      post = [] ∧ ∃ err, (Run o).1 = Outcome.err err) ∧
    ((Run o).1 = Outcome.nil → ∀ ev ∈ (Run o).2, ev.failed = false) ∧
    ((writes (Run o).2).map KeyProperties.names <+: missingEntries o.Verify.1) ∧
    (∀ pre ed kp err post, (Run o).2 = pre ++ Event.Write ed kp err :: post →
      pendingAfter pre = kp.Properties.map (fun pv => (kp.Key, pv))) ∧
    (∀ (schema : Schema) secEditor name e hist,
      (∃ ev ∈ (runEntry o schema secEditor name e hist).2,
        ev.failed = true ∧ ev.isAsk = true) →
      writes (runEntry o schema secEditor name e hist).2 = [] ∧
      ∃ err, (runEntry o schema secEditor name e hist).1 = Outcome.err err) := by
  have hentry : ∀ (schema : Schema) secEditor name e hist,
      (∃ ev ∈ (runEntry o schema secEditor name e hist).2,
        ev.failed = true ∧ ev.isAsk = true) →
      writes (runEntry o schema secEditor name e hist).2 = [] ∧
      ∃ err, (runEntry o schema secEditor name e hist).1 = Outcome.err err := by
    intro schema secEditor name e hist hex
    obtain ⟨_, _, _, _, f5, f6⟩ := runEntry_facts o schema secEditor name e hist
    refine ⟨f6 hex, ?_⟩
    obtain ⟨ev, hmem, hf, _⟩ := hex
    obtain ⟨pre, post, hl⟩ := List.append_of_mem hmem
    exact (f5 pre ev post hl hf).2
  rcases Run_cases o with ⟨hevs, err, herr⟩ | ⟨_, hout, hevs⟩ | ⟨schema, _, hrun⟩
  · rw [hevs, herr]
    refine ⟨?_, by simp, by simp [writes], ?_, hentry⟩
    · intro pre ev post hl
      simp at hl
    · intro pre ed kp err post hl
      simp at hl
  · rw [hevs, hout]
    refine ⟨?_, by simp [Event.failed], by simp [writes], ?_, hentry⟩
    · intro pre ev post hl hf
      cases pre with
      | nil =>
        simp only [List.nil_append, List.cons.injEq] at hl
        rw [← hl.1] at hf
        simp [Event.failed] at hf
      | cons x xs => simp at hl
    · intro pre ed kp err post hl
      cases pre with
      | nil => simp at hl
      | cons x xs => simp at hl
  · obtain ⟨r1, r2, r3, r4, _⟩ := runResults_facts o schema o.Verify.1 (fun _ => none) []
    rw [← hrun] at r1 r2 r3 r4
    refine ⟨r4, fun h => (r2 h).2.2.1, r1, ?_, hentry⟩
    intro pre ed kp err post hl
    exact r3 pre _ post hl ed kp err rfl

theorem Run_fail_fast_witness :
    (Run (exampleOptions
      [{ ExternalSecret := { Name := "a", Spec := { BackendType := "vault" } },
         EntryErrors := [{ Key := "db", Properties := ["user", "broken", "password"] },
                         { Key := "git", Properties := ["token"] }] }])).1
      ≠ Outcome.nil ∧
    writes (Run (exampleOptions
      [{ ExternalSecret := { Name := "a", Spec := { BackendType := "vault" } },
         EntryErrors := [{ Key := "db", Properties := ["user", "broken", "password"] },
                         { Key := "git", Properties := ["token"] }] }])).2 = [] :=
  ⟨fun h => absurd ((Run_fail_fast _).2.1 h
      (Event.askForSecretValue "db" "broken" "a" ""
        (some (GoError.Wrapf (GoError.New "aborted")
          "failed to enter property broken for key db on ExternalSecret a")))
      (by decide)) (by decide),
   by decide⟩

/-! ## C3 -/

/-- C3: the factory returning an editor that is not `nil` whenever it returns
no error, `Run` calls `factory.NewEditor` at most once for each backend type,
and exactly once for the backend type of each result when it returns `nil`;
each call is made for the first result of its backend type; the calls of
`Write` are, in order, those of the missing entries with the results that own
them (all of them when `Run` returns `nil`), and the call for an entry goes
through the editor that the call of `factory.NewEditor` for the backend type
of the result owning the entry returned, so that the results of one backend
type are written through one editor, made for the first of them. -/
theorem Run_editor_memoized {Schema : Type} (o : Options Schema)
    (hNonNil : ∀ hist secret ed, o.NewEditor hist secret = (ed, none) → ed ≠ none) :
    (∀ b, (newEditorCalls b (Run o).2).length ≤ 1) ∧
    ((Run o).1 = Outcome.nil →
      ∀ r ∈ o.Verify.1, (newEditorCalls r.backendType (Run o).2).length = 1) ∧
    (∀ es ed err, Event.NewEditor es ed err ∈ (Run o).2 →
      ∃ pre r post, o.Verify.1 = pre ++ r :: post ∧ r.ExternalSecret = es ∧
        ∀ r1 ∈ pre, r1.backendType ≠ es.Spec.BackendType) ∧
    (∀ pre ed kp err post, (Run o).2 = pre ++ Event.Write ed kp err :: post →
      ∃ b, lastUsing pre = some b ∧ editorOf (Run o).2 b = some ed) ∧
    (usings (Run o).2 <+: o.Verify.1.map SecretError.backendType) ∧
    ((Run o).1 = Outcome.nil → usings (Run o).2 = o.Verify.1.map SecretError.backendType) ∧
    (∃ done, done <+: ownedEntries o.Verify.1 ∧
      ((Run o).1 = Outcome.nil → done = ownedEntries o.Verify.1) ∧
      List.Forall₂
        (fun (re : SecretError × EntryError) (w : Editor × KeyProperties) =>
          editorOf (Run o).2 re.1.backendType = some w.1 ∧
          w.2.names = (re.2.Key, re.2.Properties))
        done (writeCalls (Run o).2)) ∧
    (∀ b ed, editorOf (Run o).2 b = some ed →
      ∃ secret, Event.NewEditor secret (some ed) none ∈ (Run o).2 ∧
        secret.Spec.BackendType = b) := by
  have howned : ∃ done, done <+: ownedEntries o.Verify.1 ∧
      ((Run o).1 = Outcome.nil → done = ownedEntries o.Verify.1) ∧
      List.Forall₂
        (fun (re : SecretError × EntryError) (w : Editor × KeyProperties) =>
          editorOf (Run o).2 re.1.backendType = some w.1 ∧
          w.2.names = (re.2.Key, re.2.Properties))
        done (writeCalls (Run o).2) := by
    obtain ⟨done, h1, h2, h3⟩ := Run_owned o
    refine ⟨done, h1, h2, List.Forall₂.imp ?_ h3⟩
    intro re w hw
    refine ⟨hw.1, ?_⟩
    simp [KeyProperties.names, hw.2.1, names_of_pairs o _ _ _ _ hw.2.2]
  have hmade := fun b ed => editorOf_made (Run o).2 b ed
  rcases Run_cases o with ⟨hevs, err, herr⟩ | ⟨hres, hout, hevs⟩ | ⟨schema, _, hrun⟩
  · refine ⟨?_, ?_, ?_, ?_, ?_, ?_, howned, hmade⟩
    · rw [hevs]
      simp [newEditorCalls]
    · rw [herr]
      simp
    · rw [hevs]
      simp
    · rw [hevs]
      intro pre ed kp err post hl
      simp at hl
    · rw [hevs]
      simp [usings]
    · rw [herr]
      simp
  · refine ⟨?_, ?_, ?_, ?_, ?_, ?_, howned, hmade⟩
    · rw [hevs]
      simp [newEditorCalls]
    · rw [hres]
      simp
    · rw [hevs]
      simp
    · rw [hevs]
      intro pre ed kp err post hl
      cases pre with
      | nil => simp at hl
      | cons x xs => simp at hl
    · rw [hevs]
      simp [usings]
    · rw [hevs, hres]
      intro _
      simp [usings]
  · obtain ⟨m1, m2, m3, m4⟩ :=
      runResults_editors o schema hNonNil o.Verify.1 (fun _ => none) [] (by simp [editorOf])
    obtain ⟨_, r2, _, _, r5⟩ := runResults_facts o schema o.Verify.1 (fun _ => none) []
    rw [← hrun] at m1 m2 m3 m4 r2 r5
    refine ⟨?_, ?_, ?_, ?_, r5, fun h => (r2 h).2.2.2, howned, hmade⟩
    · intro b
      simpa using m1 b
    · intro h r hr
      exact m2 h r hr rfl
    · intro es ed err hmem
      exact (m4 es ed err hmem).2
    · intro pre ed kp err post hl
      obtain ⟨b, hb1, hb2⟩ := m3 none pre _ post hl ed kp err rfl
      exact ⟨b, hb1, by simpa using hb2⟩

theorem Run_editor_memoized_witness :
    (newEditorCalls "vault" (Run (exampleOptions exampleResults)).2).length = 1 ∧
    (newEditorCalls "local" (Run (exampleOptions exampleResults)).2).length = 1 ∧
    List.Forall₂
      (fun (re : SecretError × EntryError) (w : Editor × KeyProperties) =>
        editorOf (Run (exampleOptions exampleResults)).2 re.1.backendType = some w.1 ∧
        w.2.names = (re.2.Key, re.2.Properties))
      (ownedEntries exampleResults) (writeCalls (Run (exampleOptions exampleResults)).2) ∧
    (writeCalls (Run (exampleOptions exampleResults)).2).map (fun w => (w.1, w.2.Key))
      = [(1, "db"), (8, "git"), (1, "s3"), (1, "gcs")] ∧
    editorOf (Run (exampleOptions exampleResults)).2 "vault" = some 1 ∧
    editorOf (Run (exampleOptions exampleResults)).2 "local" = some 8 := by
  have hNonNil : ∀ hist secret ed,
      (exampleOptions exampleResults).NewEditor hist secret = (ed, none) → ed ≠ none := by
    intro hist secret ed h
    simp only [exampleOptions] at h
    split at h <;> simp at h
    rw [← h]
    simp
  have h := Run_editor_memoized (exampleOptions exampleResults) hNonNil
  refine ⟨h.2.1 (by decide) _ (List.mem_cons_self _ _),
    h.2.1 (by decide) _ (List.mem_cons_of_mem _ (List.mem_cons_self _ _)), ?_,
    by decide, by decide, by decide⟩
  obtain ⟨done, _, hnil, hall⟩ := h.2.2.2.2.2.2.1
  have hd : done = ownedEntries exampleResults := hnil (by decide)
  rw [hd] at hall
  exact hall

end JxSecret
